import Mathlib

/-!
# Verification of the m3lc lambda-calculus evaluator

A shallow embedding of the core of the m3lc repository (src/grammar.rs and
src/reduce.rs): the `Term` model, the textual rendering, capture-avoiding
substitution with its global fresh-name counter, the normal-order reduction
engine, and alpha-equivalence.  Stateful Rust code (the thread-local
fresh-name counter) becomes explicit state passing of the counter value;
the Rust `unreachable!` panics become `Option.none`; the potentially
non-terminating `reduce` loop and the (terminating, but not structurally
recursive) `subst` are given fuel, with proofs that sufficient fuel exists.
-/

namespace M3lc

/-- The abstract grammar of lambda terms, from `src/grammar.rs`:
`Var(String)`, `Lam { param, rule }`, `Appl { left, right }`. -/
inductive Term where
  | Var : String → Term
  | Lam : (param : String) → (rule : Term) → Term
  | Appl : (left : Term) → (right : Term) → Term
deriving DecidableEq, Repr

namespace Term

/-- Number of nodes of a term (used as a termination measure and as fuel). -/
def sizeT : Term → Nat
  | Var _ => 1
  | Lam _ r => sizeT r + 1
  | Appl l r => sizeT l + sizeT r + 1

theorem one_le_sizeT (t : Term) : 1 ≤ t.sizeT := by
  cases t <;> simp [sizeT]

/-- The textual rendering of a term, from `impl Display for Term` in
`src/grammar.rs`: lambdas on the left of an application are parenthesized,
and anything that is not a variable on the right of an application is
parenthesized (including lambdas, "for readability" per the source comment). -/
def render : Term → String
  | Var s => s
  | Lam param rule => "fn " ++ param ++ " => " ++ render rule
  | Appl left right =>
      let left_fmt :=
        match left with
        | Lam _ _ => "(" ++ render left ++ ")"
        | _ => render left
      let right_fmt :=
        match right with
        | Var _ => render right
        | _ => "(" ++ render right ++ ")"
      left_fmt ++ " " ++ right_fmt

end Term

/-- The base of a fresh name: Rust's `s.split('.').next().unwrap()` is the
prefix of `s` before the first `'.'`, i.e. `takeWhile (· ≠ '.')`. -/
def stripDots (s : String) : String := ⟨s.data.takeWhile (· ≠ '.')⟩

/-- `get_fresh_ident` from `src/reduce.rs`: increment the (thread-local)
counter, then return `<base>.<new counter value>` where `<base>` is the
argument with everything from the first `'.'` on stripped.  The counter is
modelled as explicitly passed state. -/
def get_fresh_ident (s : String) (c : Nat) : String × Nat :=
  (stripDots s ++ "." ++ Nat.repr (c + 1), c + 1)

namespace Term

/-- Fuelled capture-avoiding substitution, from `Term::subst` in
`src/reduce.rs`.  `substFuel n t replace w c` substitutes `w` for free
occurrences of `replace` in `t`, threading the fresh-name counter `c`.
The Rust recursion is not structural (the second recursive call in the
`Lam` case acts on the renamed body), so the embedding uses fuel; the
fuel is shown sufficient below (`substFuel_total`). -/
def substFuel : Nat → Term → String → Term → Nat → Option (Term × Nat)
  | 0, _, _, _, _ => none
  | n + 1, t, replace, w, c =>
    match t with
    | Var s => if s = replace then some (w, c) else some (Var s, c)
    | Lam param rule =>
      if param = replace then some (Lam param rule, c)
      else
        let p := get_fresh_ident param c
        (substFuel n rule param (Var p.1) p.2).bind fun q =>
          (substFuel n q.1 replace w q.2).bind fun q2 =>
            some (Lam p.1 q2.1, q2.2)
    | Appl left right =>
      (substFuel n left replace w c).bind fun q =>
        (substFuel n right replace w q.2).bind fun q2 =>
          some (Appl q.1 q2.1, q2.2)

/-- Substituting a variable for a variable preserves the size of the term. -/
theorem substFuel_size_var : ∀ (n : Nat) (t : Term) (x z : String) (c : Nat)
    (r : Term) (c' : Nat), substFuel n t x (Var z) c = some (r, c') →
    r.sizeT = t.sizeT := by
  intro n
  induction n with
  | zero => intro t x z c r c' h; simp [substFuel] at h
  | succ n ih =>
    intro t x z c r c' h
    cases t with
    | Var s =>
      simp only [substFuel] at h
      by_cases hs : s = x <;> simp [hs] at h <;>
        simp [← h.1, sizeT]
    | Lam param rule =>
      simp only [substFuel] at h
      by_cases hp : param = x
      · simp [hp] at h
        simp [← h.1, sizeT]
      · simp only [hp, if_false] at h
        cases h1 : substFuel n rule param (Var (get_fresh_ident param c).1)
            (get_fresh_ident param c).2 with
        | none => rw [h1] at h; simp at h
        | some q =>
          rw [h1] at h
          simp only [Option.some_bind] at h
          cases h2 : substFuel n q.1 x (Var z) q.2 with
          | none => rw [h2] at h; simp at h
          | some q2 =>
            rw [h2] at h
            simp only [Option.some_bind, Option.some.injEq, Prod.mk.injEq] at h
            have e1 := ih rule param (get_fresh_ident param c).1
              (get_fresh_ident param c).2 q.1 q.2 h1
            have e2 := ih q.1 x z q.2 q2.1 q2.2 h2
            rw [← h.1]
            simp [sizeT, e2, e1]
    | Appl left right =>
      simp only [substFuel] at h
      cases h1 : substFuel n left x (Var z) c with
      | none => rw [h1] at h; simp at h
      | some q =>
        rw [h1] at h
        simp only [Option.some_bind] at h
        cases h2 : substFuel n right x (Var z) q.2 with
        | none => rw [h2] at h; simp at h
        | some q2 =>
          rw [h2] at h
          simp only [Option.some_bind, Option.some.injEq, Prod.mk.injEq] at h
          have e1 := ih left x z c q.1 q.2 h1
          have e2 := ih right x z q.2 q2.1 q2.2 h2
          rw [← h.1]
          simp [sizeT, e1, e2]

/-- Fuel `sizeT t` suffices for `substFuel`: the Rust recursion terminates. -/
theorem substFuel_total : ∀ (n : Nat) (t : Term) (x : String) (w : Term)
    (c : Nat), t.sizeT ≤ n → ∃ r c', substFuel n t x w c = some (r, c') := by
  intro n
  induction n with
  | zero =>
    intro t x w c h
    have := t.one_le_sizeT
    omega
  | succ n ih =>
    intro t x w c h
    cases t with
    | Var s =>
      by_cases hs : s = x
      · exact ⟨w, c, by simp [substFuel, hs]⟩
      · exact ⟨Var s, c, by simp [substFuel, hs]⟩
    | Lam param rule =>
      by_cases hp : param = x
      · exact ⟨Lam param rule, c, by simp [substFuel, hp]⟩
      · have hr : rule.sizeT ≤ n := by simp [sizeT] at h; omega
        obtain ⟨r1, c1, h1⟩ := ih rule param (Var (get_fresh_ident param c).1)
          (get_fresh_ident param c).2 hr
        have hr1 : r1.sizeT ≤ n := by
          rw [substFuel_size_var n rule param _ _ r1 c1 h1]; exact hr
        obtain ⟨r2, c2, h2⟩ := ih r1 x w c1 hr1
        exact ⟨Lam (get_fresh_ident param c).1 r2, c2, by
          simp [substFuel, hp, h1, h2]⟩
    | Appl left right =>
      have hl : left.sizeT ≤ n := by simp [sizeT] at h; omega
      have hrr : right.sizeT ≤ n := by simp [sizeT] at h; omega
      obtain ⟨r1, c1, h1⟩ := ih left x w c hl
      obtain ⟨r2, c2, h2⟩ := ih right x w c1 hrr
      exact ⟨Appl r1 r2, c2, by simp [substFuel, h1, h2]⟩

/-- `Term::subst` from `src/reduce.rs`, as a total function: `substFuel`
with the provably sufficient fuel `sizeT t`.  The default value is never
used (`substFuel_total`). -/
def subst (t : Term) (replace : String) (w : Term) (c : Nat) : Term × Nat :=
  (substFuel t.sizeT t replace w c).getD (t, c)

/-- Increasing the fuel does not change a successful `substFuel` run. -/
theorem substFuel_mono : ∀ (n : Nat) (t : Term) (x : String) (w : Term)
    (c : Nat) (r : Term × Nat) (m : Nat), substFuel n t x w c = some r →
    n ≤ m → substFuel m t x w c = some r := by
  intro n
  induction n with
  | zero => intro t x w c r m h; simp [substFuel] at h
  | succ n ih =>
    intro t x w c r m h hm
    obtain ⟨m', rfl⟩ : ∃ m', m = m' + 1 := ⟨m - 1, by omega⟩
    have hm' : n ≤ m' := by omega
    cases t with
    | Var s => simpa [substFuel] using h
    | Lam param rule =>
      by_cases hp : param = x
      · simpa [substFuel, hp] using h
      · simp only [substFuel, hp, if_false] at h ⊢
        cases h1 : substFuel n rule param (Var (get_fresh_ident param c).1)
            (get_fresh_ident param c).2 with
        | none => rw [h1] at h; simp at h
        | some q =>
          rw [h1] at h
          simp only [Option.some_bind] at h
          cases h2 : substFuel n q.1 x w q.2 with
          | none => rw [h2] at h; simp at h
          | some q2 =>
            rw [h2] at h
            rw [ih rule param _ _ q m' h1 hm', Option.some_bind,
              ih q.1 x w q.2 q2 m' h2 hm']
            exact h
    | Appl left right =>
      simp only [substFuel] at h ⊢
      cases h1 : substFuel n left x w c with
      | none => rw [h1] at h; simp at h
      | some q =>
        rw [h1] at h
        simp only [Option.some_bind] at h
        cases h2 : substFuel n right x w q.2 with
        | none => rw [h2] at h; simp at h
        | some q2 =>
          rw [h2] at h
          rw [ih left x w c q m' h1 hm', Option.some_bind,
            ih right x w q.2 q2 m' h2 hm']
          exact h

/-- `substFuel` at the canonical fuel computes `subst`. -/
theorem substFuel_eq_subst (t : Term) (x : String) (w : Term) (c : Nat) :
    substFuel t.sizeT t x w c = some (subst t x w c) := by
  obtain ⟨r, c', h⟩ := substFuel_total t.sizeT t x w c (le_refl _)
  rw [subst, h]
  rfl

/-- Substituting a variable for a variable preserves term size
(`subst`-level version). -/
theorem subst_size_var (t : Term) (x z : String) (c : Nat) :
    (subst t x (Var z) c).1.sizeT = t.sizeT := by
  have h := substFuel_eq_subst t x (Var z) c
  exact substFuel_size_var t.sizeT t x z c _ _ (by rw [h])

/-- Defining equation of `subst` on variables:
`[s/x] x := s` and `[s/x] y := y`. -/
theorem subst_var (s x : String) (w : Term) (c : Nat) :
    subst (Var s) x w c = if s = x then (w, c) else (Var s, c) := by
  by_cases hs : s = x <;> simp [subst, sizeT, substFuel, hs]

/-- Defining equation of `subst` on a shadowing lambda:
`[s/x] (fn x => t) := (fn x => t)`. -/
theorem subst_lam_shadow (rule : Term) (x : String) (w : Term) (c : Nat) :
    subst (Lam x rule) x w c = (Lam x rule, c) := by
  simp [subst, sizeT, substFuel]

/-- Defining equation of `subst` on a non-shadowing lambda:
`[s/x] (fn y => t) := (fn z => [s/x] ([z/y] t))` for fresh `z`,
with the counter threaded through the fresh-name generation and both
nested substitutions. -/
theorem subst_lam (param : String) (rule : Term) (x : String) (w : Term)
    (c : Nat) (hp : param ≠ x) :
    subst (Lam param rule) x w c =
      (Lam (get_fresh_ident param c).1
          (subst (subst rule param (Var (get_fresh_ident param c).1)
              (get_fresh_ident param c).2).1 x w
            (subst rule param (Var (get_fresh_ident param c).1)
              (get_fresh_ident param c).2).2).1,
        (subst (subst rule param (Var (get_fresh_ident param c).1)
              (get_fresh_ident param c).2).1 x w
          (subst rule param (Var (get_fresh_ident param c).1)
            (get_fresh_ident param c).2).2).2) := by
  have h1 := substFuel_eq_subst rule param (Var (get_fresh_ident param c).1)
    (get_fresh_ident param c).2
  have hsz : (subst rule param (Var (get_fresh_ident param c).1)
      (get_fresh_ident param c).2).1.sizeT = rule.sizeT :=
    subst_size_var rule param (get_fresh_ident param c).1
      (get_fresh_ident param c).2
  have h2 := substFuel_eq_subst (subst rule param
      (Var (get_fresh_ident param c).1) (get_fresh_ident param c).2).1 x w
    (subst rule param (Var (get_fresh_ident param c).1)
      (get_fresh_ident param c).2).2
  rw [hsz] at h2
  show (substFuel (rule.sizeT + 1) (Lam param rule) x w c).getD _ = _
  simp only [substFuel, hp, if_false, h1, Option.some_bind, h2,
    Option.getD_some]

/-- Defining equation of `subst` on an application:
`[s/x] (t1 t2) := ([s/x] t1) ([s/x] t2)`, left first (counter threading). -/
theorem subst_appl (left right : Term) (x : String) (w : Term) (c : Nat) :
    subst (Appl left right) x w c =
      (Appl (subst left x w c).1
          (subst right x w (subst left x w c).2).1,
        (subst right x w (subst left x w c).2).2) := by
  have h1 := substFuel_mono left.sizeT left x w c _
    (left.sizeT + right.sizeT) (substFuel_eq_subst left x w c) (by omega)
  have h2 := substFuel_mono right.sizeT right x w (subst left x w c).2 _
    (left.sizeT + right.sizeT)
    (substFuel_eq_subst right x w (subst left x w c).2) (by omega)
  show (substFuel (left.sizeT + right.sizeT + 1) (Appl left right) x w c).getD _
    = _
  simp only [substFuel, h1, Option.some_bind, h2, Option.getD_some]

/-- `Term::is_irreducible` from `src/reduce.rs`: `Var` is irreducible;
an application with a `Lam` on the left is reducible; any other
application is irreducible iff both sides are; a `Lam` is irreducible
iff its rule is. -/
def is_irreducible : Term → Bool
  | Var _ => true
  | Appl left right =>
    match left with
    | Lam _ _ => false
    | _ => is_irreducible left && is_irreducible right
  | Lam _ rule => is_irreducible rule

/-- `Term::reduction_step` from `src/reduce.rs`, with the counter threaded.
The `Var` arm is the Rust `unreachable!` panic, modelled as `none`; the
`Appl`-with-`Lam`-on-the-left arm is `Term::apply`, which substitutes the
right side for the parameter in the lambda's rule. -/
def reduction_step (t : Term) (c : Nat) : Option (Term × Nat) :=
  match t with
  | Var _ => none
  | Lam param rule =>
    (reduction_step rule c).map fun q => (Lam param q.1, q.2)
  | Appl left right =>
    match left with
    | Lam param rule => some (subst rule param right c)
    | _ =>
      if is_irreducible left then
        (reduction_step right c).map fun q => (Appl left q.1, q.2)
      else
        (reduction_step left c).map fun q => (Appl q.1 right, q.2)

/-- `Term::reduce` from `src/reduce.rs`: repeatedly apply `reduction_step`
while the term is reducible.  The Rust loop may diverge, so the embedding
takes fuel (number of loop iterations); `none` means the fuel ran out or a
step hit the `unreachable!` arm. -/
def reduceFuel : Nat → Term → Nat → Option (Term × Nat)
  | 0, t, c => if is_irreducible t then some (t, c) else none
  | n + 1, t, c =>
    if is_irreducible t then some (t, c)
    else (reduction_step t c).bind fun q => reduceFuel n q.1 q.2

/-- The `Var` comparison of `Term::alpha_equiv_impl`: find the most recent
context entry binding either name; it must then bind both; if neither name
is bound the raw names must be equal.  The Rust context is a `Vec` used as
a stack (`push`/`rfind` from the end); it is modelled as a list with the
most recent binding first, so `rfind` becomes `List.find?`. -/
def varCheck (x y : String) (ctx : List (String × String)) : Bool :=
  match ctx.find? fun p => p.1 = x || p.2 = y with
  | some p => p.1 = x && p.2 = y
  | none => x = y

/-- `Term::alpha_equiv_impl` from `src/reduce.rs`. -/
def alpha_equiv_impl : Term → Term → List (String × String) → Bool
  | Var x, Var y, ctx => varCheck x y ctx
  | Lam param1 rule1, Lam param2 rule2, ctx =>
    alpha_equiv_impl rule1 rule2 ((param1, param2) :: ctx)
  | Appl left1 right1, Appl left2 right2, ctx =>
    alpha_equiv_impl left1 left2 ctx && alpha_equiv_impl right1 right2 ctx
  | _, _, _ => false

/-- `Term::alpha_equiv` from `src/reduce.rs`: alpha-equivalence with an
initially empty context. -/
def alpha_equiv (t1 t2 : Term) : Bool := alpha_equiv_impl t1 t2 []

/-- The free variables of a term (the standard semantic notion used by the
spec's substitution properties). -/
def fv : Term → Finset String
  | Var s => {s}
  | Lam param rule => fv rule \ {param}
  | Appl left right => fv left ∪ fv right

/-- All identifiers occurring in a term (parameters and variables). -/
def idents : Term → List String
  | Var s => [s]
  | Lam param rule => param :: idents rule
  | Appl left right => idents left ++ idents right

end Term

/-- The identifier `s` contains no `'.'`.  The surface grammar forbids `'.'`
in user-written identifiers (spec §3); it is reserved for generated names. -/
def noDot (s : String) : Prop := '.' ∉ s.data

instance : DecidablePred noDot := fun s => by
  unfold noDot; infer_instance

/-- `s` is a well-formed identifier relative to counter value `c`: either a
user-written (dot-free) name, or a name generated by `get_fresh_ident` at
some counter value `k ≤ c`. -/
def nameOK (c : Nat) (s : String) : Prop :=
  noDot s ∨ ∃ k ≤ c, s = stripDots s ++ "." ++ Nat.repr k

instance : ∀ c s, Decidable (nameOK c s) := fun c s => by
  unfold nameOK; infer_instance

/-- Every identifier in `t` is well-formed relative to counter value `c`.
This is the data-model invariant of spec §3: terms reaching the reduction
engine contain only user-written (dot-free) names and names generated by
previous `get_fresh_ident` calls. -/
def namesBelow (c : Nat) (t : Term) : Prop :=
  ∀ s ∈ t.idents, nameOK c s

instance : ∀ c t, Decidable (namesBelow c t) := fun c t => by
  unfold namesBelow; infer_instance

/-! ### Decimal representation: `Nat.repr` is injective and dot-free

`get_fresh_ident` embeds the counter via `Nat.repr` (Rust's
`usize::to_string`).  Freshness arguments need that distinct counter
values yield distinct strings. -/

/-- The decimal digit characters of `n`, most significant first. -/
def decDigits (n : Nat) : List Char :=
  if n < 10 then [Nat.digitChar n]
  else decDigits (n / 10) ++ [Nat.digitChar (n % 10)]
  decreasing_by exact Nat.div_lt_self (by omega) (by omega)

theorem toDigitsCore_eq_decDigits :
    ∀ (fuel n : Nat) (ds : List Char), n < fuel →
      Nat.toDigitsCore 10 fuel n ds = decDigits n ++ ds := by
  intro fuel
  induction fuel with
  | zero => intro n ds h; omega
  | succ fuel ih =>
    intro n ds h
    rw [Nat.toDigitsCore]
    by_cases h10 : n / 10 = 0
    · have hn : n < 10 := by omega
      simp only [h10, if_pos]
      rw [decDigits, if_pos hn, Nat.mod_eq_of_lt hn]
      rfl
    · have hn : ¬n < 10 := by omega
      simp only [h10, if_neg, if_false]
      rw [ih (n / 10) _ (by omega)]
      conv_rhs => rw [decDigits]
      rw [if_neg hn, List.append_assoc]
      rfl

theorem repr_data (n : Nat) : (Nat.repr n).data = decDigits n := by
  show (List.asString (Nat.toDigitsCore 10 (n + 1) n [])).data = decDigits n
  rw [toDigitsCore_eq_decDigits (n + 1) n [] (by omega), List.append_nil]
  rfl

/-- Numeric value of a decimal digit character. -/
def digitVal (ch : Char) : Nat := ch.toNat - '0'.toNat

theorem digitVal_digitChar : ∀ d < 10, digitVal (Nat.digitChar d) = d := by
  decide

theorem foldl_decDigits :
    ∀ (n acc : Nat),
      List.foldl (fun a ch => 10 * a + digitVal ch) acc (decDigits n) =
        acc * 10 ^ (decDigits n).length + n := by
  intro n
  induction n using Nat.strong_induction_on with
  | _ n ih =>
    intro acc
    by_cases h : n < 10
    · rw [decDigits, if_pos h]
      simp [digitVal_digitChar n h]
      omega
    · rw [decDigits, if_neg h]
      rw [List.foldl_append]
      rw [ih (n / 10) (Nat.div_lt_self (by omega) (by omega)) acc]
      simp only [List.foldl_cons, List.foldl_nil, List.length_append,
        List.length_cons, List.length_nil]
      rw [digitVal_digitChar (n % 10) (Nat.mod_lt n (by omega))]
      have : 10 * (acc * 10 ^ (decDigits (n / 10)).length + n / 10) + n % 10 =
          acc * (10 ^ (decDigits (n / 10)).length * 10) +
            (10 * (n / 10) + n % 10) := by ring
      rw [this, Nat.div_add_mod]
      ring_nf

theorem decDigits_inj {m n : Nat} (h : decDigits m = decDigits n) : m = n := by
  have hm := foldl_decDigits m 0
  have hn := foldl_decDigits n 0
  rw [h] at hm
  omega

theorem repr_inj {m n : Nat} (h : Nat.repr m = Nat.repr n) : m = n :=
  decDigits_inj (by rw [← repr_data, ← repr_data, h])

/-! ### Fresh names never collide with existing well-formed names -/

theorem noDot_stripDots (s : String) : noDot (stripDots s) := by
  intro hmem
  have := List.mem_takeWhile_imp hmem
  simp at this

theorem stripDots_of_noDot {s : String} (h : noDot s) : stripDots s = s := by
  apply String.ext
  show s.data.takeWhile (fun ch => ch ≠ '.') = s.data
  rw [List.takeWhile_eq_self_iff]
  intro a ha
  simp only [ne_eq, decide_eq_true_eq]
  rintro rfl
  exact h ha

/-- Splitting a string at its first `'.'` is unambiguous when the prefix
is dot-free. -/
theorem dot_decomp_inj {b1 b2 r1 r2 : List Char} (h1 : '.' ∉ b1)
    (h2 : '.' ∉ b2) (h : b1 ++ '.' :: r1 = b2 ++ '.' :: r2) :
    b1 = b2 ∧ r1 = r2 := by
  induction b1 generalizing b2 with
  | nil =>
    cases b2 with
    | nil => simpa using h
    | cons c b2 =>
      simp only [List.nil_append, List.cons_append, List.cons.injEq] at h
      exact absurd (h.1 ▸ List.mem_cons_self c b2) h2
  | cons c b1 ih =>
    cases b2 with
    | nil =>
      simp only [List.cons_append, List.nil_append, List.cons.injEq] at h
      exact absurd (h.1.symm ▸ List.mem_cons_self c b1) h1
    | cons c2 b2 =>
      simp only [List.cons_append, List.cons.injEq] at h
      have := ih (fun hm => h1 (List.mem_cons_of_mem c hm))
        (fun hm => h2 (h.1 ▸ List.mem_cons_of_mem c2 hm)) h.2
      exact ⟨by rw [h.1, this.1], this.2⟩

/-- A generated name decomposes as data. -/
theorem gen_data (b r : String) :
    (b ++ "." ++ r).data = b.data ++ '.' :: r.data := by
  simp [String.data_append]

theorem stripDots_gen (b r : String) (hb : noDot b) :
    stripDots (b ++ "." ++ r) = b := by
  apply String.ext
  show ((b ++ "." ++ r).data).takeWhile (fun ch => ch ≠ '.') = b.data
  rw [gen_data, List.takeWhile_append_of_pos]
  · simp [List.takeWhile_cons]
  · intro a ha
    simp only [ne_eq, decide_eq_true_eq]
    rintro rfl
    exact hb ha

/-- The name generated at counter value `k` is well formed at any `c ≥ k`. -/
theorem nameOK_gen (b : String) (k c : Nat) (hk : k ≤ c) :
    nameOK c (stripDots b ++ "." ++ Nat.repr k) := by
  refine Or.inr ⟨k, hk, ?_⟩
  rw [stripDots_gen _ _ (noDot_stripDots b)]

/-- A name that is well formed at counter value `c` is distinct from any
name generated at a counter value `k > c`. -/
theorem nameOK_ne_gen {c : Nat} {s : String} (h : nameOK c s) (b : String)
    (hb : noDot b) (k : Nat) (hk : c < k) : s ≠ b ++ "." ++ Nat.repr k := by
  rintro rfl
  cases h with
  | inl hdot =>
    exact hdot (by rw [gen_data]; exact List.mem_append_right _ (List.mem_cons_self _ _))
  | inr hgen =>
    obtain ⟨k', hk', hs⟩ := hgen
    rw [stripDots_gen _ _ hb] at hs
    have hd := congrArg String.data hs
    rw [gen_data, gen_data] at hd
    have := dot_decomp_inj hb hb hd
    have : Nat.repr k = Nat.repr k' := String.ext this.2
    have := repr_inj this
    omega

theorem nameOK_mono {c c' : Nat} (h : c ≤ c') {s : String} (hs : nameOK c s) :
    nameOK c' s := by
  cases hs with
  | inl h => exact Or.inl h
  | inr hgen =>
    obtain ⟨k, hk, hs⟩ := hgen
    exact Or.inr ⟨k, le_trans hk h, hs⟩

theorem namesBelow_mono {c c' : Nat} (h : c ≤ c') {t : Term}
    (ht : namesBelow c t) : namesBelow c' t :=
  fun s hs => nameOK_mono h (ht s hs)

theorem fv_subset_idents : ∀ (t : Term), ∀ m ∈ t.fv, m ∈ t.idents := by
  intro t
  induction t with
  | Var s => simp [Term.fv, Term.idents]
  | Lam param rule ih =>
    intro m hm
    simp only [Term.fv, Finset.mem_sdiff] at hm
    exact List.mem_cons_of_mem _ (ih m hm.1)
  | Appl left right ihl ihr =>
    intro m hm
    simp only [Term.fv, Finset.mem_union] at hm
    rw [Term.idents, List.mem_append]
    exact hm.imp (ihl m) (ihr m)

/-! ### Invariants preserved by substitution -/

namespace Term

theorem get_fresh_ident_eq (param : String) (c : Nat) :
    get_fresh_ident param c = (stripDots param ++ "." ++ Nat.repr (c + 1), c + 1) :=
  rfl

/-- The counter never decreases through a substitution. -/
theorem subst_counter_le :
    ∀ (N : Nat) (t : Term) (x : String) (w : Term) (c : Nat), t.sizeT ≤ N →
      c ≤ (subst t x w c).2 := by
  intro N
  induction N with
  | zero => intro t x w c h; have := t.one_le_sizeT; omega
  | succ N ih =>
    intro t x w c h
    cases t with
    | Var s =>
      rw [subst_var]
      by_cases hs : s = x <;> simp [hs]
    | Lam param rule =>
      by_cases hp : param = x
      · subst hp; rw [subst_lam_shadow]
      · rw [subst_lam param rule x w c hp]
        have hr : rule.sizeT ≤ N := by simp [sizeT] at h; omega
        have h1 := ih rule param (Var (get_fresh_ident param c).1)
          (get_fresh_ident param c).2 hr
        have hr1 : (subst rule param (Var (get_fresh_ident param c).1)
            (get_fresh_ident param c).2).1.sizeT ≤ N := by
          rw [subst_size_var]; exact hr
        have h2 := ih _ x w (subst rule param (Var (get_fresh_ident param c).1)
          (get_fresh_ident param c).2).2 hr1
        simp only [get_fresh_ident_eq] at h1 h2 ⊢
        omega
    | Appl left right =>
      rw [subst_appl]
      have hl : left.sizeT ≤ N := by simp [sizeT] at h; omega
      have hr : right.sizeT ≤ N := by simp [sizeT] at h; omega
      have h1 := ih left x w c hl
      have h2 := ih right x w (subst left x w c).2 hr
      omega

/-- Substitution preserves well-formedness of all identifiers: if every
name in `t` and in `w` is well formed at the incoming counter, every name
in the result is well formed at the outgoing counter. -/
theorem subst_names :
    ∀ (N : Nat) (t : Term) (x : String) (w : Term) (c : Nat), t.sizeT ≤ N →
      namesBelow c t → namesBelow c w →
      namesBelow (subst t x w c).2 (subst t x w c).1 := by
  intro N
  induction N with
  | zero => intro t x w c h; have := t.one_le_sizeT; omega
  | succ N ih =>
    intro t x w c h ht hw
    cases t with
    | Var s =>
      rw [subst_var]
      by_cases hs : s = x <;> simp only [hs, if_true, if_pos, if_neg, if_false]
      · exact hw
      · simpa [subst_var, hs] using ht
    | Lam param rule =>
      by_cases hp : param = x
      · subst hp; rw [subst_lam_shadow]; exact ht
      · rw [subst_lam param rule x w c hp]
        have hr : rule.sizeT ≤ N := by simp [sizeT] at h; omega
        have hrules : namesBelow c rule := fun s hs =>
          ht s (List.mem_cons_of_mem _ hs)
        have hz : nameOK (c + 1) (get_fresh_ident param c).1 := by
          rw [get_fresh_ident_eq]
          exact nameOK_gen param (c + 1) (c + 1) (le_refl _)
        have h1 := ih rule param (Var (get_fresh_ident param c).1)
          (get_fresh_ident param c).2 hr (namesBelow_mono (by simp [get_fresh_ident_eq]) hrules)
          (by
            intro s hs
            simp only [idents, List.mem_singleton] at hs
            subst hs
            simpa [get_fresh_ident_eq] using hz)
        have hr1 : (subst rule param (Var (get_fresh_ident param c).1)
            (get_fresh_ident param c).2).1.sizeT ≤ N := by
          rw [subst_size_var]; exact hr
        have hcle := subst_counter_le N rule param
          (Var (get_fresh_ident param c).1) (get_fresh_ident param c).2 hr
        have h2 := ih _ x w (subst rule param (Var (get_fresh_ident param c).1)
          (get_fresh_ident param c).2).2 hr1 h1
          (namesBelow_mono (by simp only [get_fresh_ident_eq] at hcle ⊢; omega) hw)
        have hcle2 := subst_counter_le N _ x w
          (subst rule param (Var (get_fresh_ident param c).1)
            (get_fresh_ident param c).2).2 hr1
        intro s hs
        simp only [idents, List.mem_cons] at hs
        cases hs with
        | inl hsz =>
          subst hsz
          exact nameOK_mono (by simp only [get_fresh_ident_eq] at hcle hcle2 ⊢; omega) hz
        | inr hs => exact h2 s hs
    | Appl left right =>
      rw [subst_appl]
      have hl : left.sizeT ≤ N := by simp [sizeT] at h; omega
      have hrr : right.sizeT ≤ N := by simp [sizeT] at h; omega
      have hlnames : namesBelow c left := fun s hs =>
        ht s (by rw [idents, List.mem_append]; exact Or.inl hs)
      have hrnames : namesBelow c right := fun s hs =>
        ht s (by rw [idents, List.mem_append]; exact Or.inr hs)
      have h1 := ih left x w c hl hlnames hw
      have hcle := subst_counter_le N left x w c hl
      have h2 := ih right x w (subst left x w c).2 hrr
        (namesBelow_mono hcle hrnames) (namesBelow_mono hcle hw)
      have hcle2 := subst_counter_le N right x w (subst left x w c).2 hrr
      intro s hs
      simp only [idents, List.mem_append] at hs
      cases hs with
      | inl hs => exact nameOK_mono hcle2 (h1 s hs)
      | inr hs => exact h2 s hs

/-- The free variables of a substitution result are contained in the free
variables of the original (minus the substituted variable) plus those of
the substituted-in term. -/
theorem subst_fv :
    ∀ (N : Nat) (t : Term) (x : String) (w : Term) (c : Nat), t.sizeT ≤ N →
      (subst t x w c).1.fv ⊆ (t.fv \ {x}) ∪ w.fv := by
  intro N
  induction N with
  | zero => intro t x w c h; have := t.one_le_sizeT; omega
  | succ N ih =>
    intro t x w c h
    cases t with
    | Var s =>
      rw [subst_var]
      by_cases hs : s = x
      · simp [hs]
      · intro a ha
        simp only [hs, if_neg, if_false, fv, Finset.mem_singleton] at ha
        simp [ha, fv, hs]
    | Lam param rule =>
      by_cases hp : param = x
      · subst hp
        rw [subst_lam_shadow]
        intro a ha
        simp only [fv, Finset.mem_sdiff, Finset.mem_singleton] at ha
        simp [fv, ha.1, ha.2]
      · rw [subst_lam param rule x w c hp]
        have hr : rule.sizeT ≤ N := by simp [sizeT] at h; omega
        have hr1 : (subst rule param (Var (get_fresh_ident param c).1)
            (get_fresh_ident param c).2).1.sizeT ≤ N := by
          rw [subst_size_var]; exact hr
        have h1 := ih rule param (Var (get_fresh_ident param c).1)
          (get_fresh_ident param c).2 hr
        have h2 := ih _ x w (subst rule param (Var (get_fresh_ident param c).1)
          (get_fresh_ident param c).2).2 hr1
        intro a ha
        simp only [fv, Finset.mem_sdiff, Finset.mem_singleton] at ha
        have ha2 := h2 ha.1
        simp only [Finset.mem_union, Finset.mem_sdiff, Finset.mem_singleton]
          at ha2
        cases ha2 with
        | inl hmem =>
          have ha1 := h1 hmem.1
          simp only [fv, Finset.mem_union, Finset.mem_sdiff,
            Finset.mem_singleton] at ha1
          cases ha1 with
          | inl hmem1 =>
            exact Finset.mem_union_left _ (by
              simp only [fv, Finset.mem_sdiff, Finset.mem_singleton]
              exact ⟨⟨hmem1.1, hmem1.2⟩, hmem.2⟩)
          | inr hz => exact absurd hz ha.2
        | inr hw => exact Finset.mem_union_right _ hw
    | Appl left right =>
      rw [subst_appl]
      have hl : left.sizeT ≤ N := by simp [sizeT] at h; omega
      have hrr : right.sizeT ≤ N := by simp [sizeT] at h; omega
      have h1 := ih left x w c hl
      have h2 := ih right x w (subst left x w c).2 hrr
      intro a ha
      simp only [fv, Finset.mem_union] at ha
      cases ha with
      | inl ha =>
        have := h1 ha
        simp only [Finset.mem_union, Finset.mem_sdiff, Finset.mem_singleton]
          at this ⊢
        simp only [fv, Finset.mem_union]
        tauto
      | inr ha =>
        have := h2 ha
        simp only [Finset.mem_union, Finset.mem_sdiff, Finset.mem_singleton]
          at this ⊢
        simp only [fv, Finset.mem_union]
        tauto

end Term

/-! ### Alpha-equivalence: context lemmas -/

namespace Term

/-- `varCheck` on a diagonal context (every pair binds the same name on
both sides) always succeeds on equal names. -/
theorem varCheck_diag (m : String) (l : List (String × String)) :
    varCheck m m (l.map fun q => (q.1, q.1)) = true := by
  induction l with
  | nil => simp [varCheck]
  | cons a l ih =>
    by_cases ha : a.1 = m
    · simp [varCheck, List.find?_cons_of_pos, ha]
    · simpa [varCheck, List.find?_cons_of_neg, ha] using ih

/-- Reflexivity of `alpha_equiv_impl` under any context that acts as the
identity on the free variables of the term. -/
theorem alpha_impl_refl :
    ∀ (t : Term) (ctx : List (String × String)),
      (∀ m ∈ t.fv, varCheck m m ctx = true) →
      alpha_equiv_impl t t ctx = true := by
  intro t
  induction t with
  | Var s =>
    intro ctx h
    exact h s (by simp [fv])
  | Lam param rule ih =>
    intro ctx h
    rw [alpha_equiv_impl]
    apply ih
    intro m hm
    by_cases hmp : m = param
    · subst hmp
      simp [varCheck, List.find?_cons_of_pos]
    · have : varCheck m m ctx = true := h m (by
        simp only [fv, Finset.mem_sdiff, Finset.mem_singleton]
        exact ⟨hm, hmp⟩)
      simpa [varCheck, List.find?_cons_of_neg, Ne.symm hmp] using this
  | Appl left right ihl ihr =>
    intro ctx h
    rw [alpha_equiv_impl, Bool.and_eq_true]
    constructor
    · exact ihl ctx fun m hm => h m (by simp [fv]; exact Or.inl hm)
    · exact ihr ctx fun m hm => h m (by simp [fv]; exact Or.inr hm)

/-- `varCheck` is symmetric under swapping the context pairs. -/
theorem varCheck_swap (x y : String) (ctx : List (String × String)) :
    varCheck y x (ctx.map Prod.swap) = varCheck x y ctx := by
  induction ctx with
  | nil => simp [varCheck, eq_comm]
  | cons a ctx ih =>
    obtain ⟨a1, a2⟩ := a
    by_cases h1 : a1 = x <;> by_cases h2 : a2 = y <;>
      simp_all [varCheck, List.find?_cons, Bool.and_comm]

/-- Symmetry of `alpha_equiv_impl` under swapping the context. -/
theorem alpha_impl_symm :
    ∀ (t1 t2 : Term) (ctx : List (String × String)),
      alpha_equiv_impl t2 t1 (ctx.map Prod.swap) = alpha_equiv_impl t1 t2 ctx := by
  intro t1
  induction t1 with
  | Var s =>
    intro t2 ctx
    cases t2 <;> simp only [alpha_equiv_impl]
    exact varCheck_swap s _ ctx
  | Lam param rule ih =>
    intro t2 ctx
    cases t2 with
    | Var _ => simp [alpha_equiv_impl]
    | Appl _ _ => simp [alpha_equiv_impl]
    | Lam param2 rule2 =>
      simp only [alpha_equiv_impl]
      have := ih rule2 ((param, param2) :: ctx)
      simpa using this
  | Appl left right ihl ihr =>
    intro t2 ctx
    cases t2 <;> simp only [alpha_equiv_impl]
    rw [ihl _ ctx, ihr _ ctx]

/-- Transitivity of `varCheck` over componentwise-aligned contexts. -/
theorem varCheck_trans :
    ∀ (l : List (String × String × String)) (x y z : String),
      varCheck x y (l.map fun q => (q.1, q.2.1)) = true →
      varCheck y z (l.map fun q => (q.2.1, q.2.2)) = true →
      varCheck x z (l.map fun q => (q.1, q.2.2)) = true := by
  intro l
  induction l with
  | nil =>
    intro x y z h1 h2
    simp only [varCheck, List.map_nil, List.find?_nil, decide_eq_true_eq]
      at h1 h2 ⊢
    exact h1.trans h2
  | cons a l ih =>
    intro x y z h1 h2
    obtain ⟨b1, b2, b3⟩ := a
    simp only [List.map_cons, varCheck] at h1 h2 ⊢
    by_cases hp1 : (decide (b1 = x) || decide (b2 = y)) = true
    · rw [@List.find?_cons_of_pos _ (fun p => decide (p.1 = x) || decide (p.2 = y))
        (b1, b2) _ hp1] at h1
      simp only [Bool.and_eq_true, decide_eq_true_eq] at h1
      have hp2 : (decide (b2 = y) || decide (b3 = z)) = true := by simp [h1.2]
      rw [@List.find?_cons_of_pos _ (fun p => decide (p.1 = y) || decide (p.2 = z))
        (b2, b3) _ hp2] at h2
      simp only [Bool.and_eq_true, decide_eq_true_eq] at h2
      have hp3 : (decide (b1 = x) || decide (b3 = z)) = true := by simp [h1.1]
      rw [@List.find?_cons_of_pos _ (fun p => decide (p.1 = x) || decide (p.2 = z))
        (b1, b3) _ hp3]
      simp [h1.1, h2.2]
    · have hb : ¬b1 = x ∧ ¬b2 = y := by
        constructor <;> intro hcon <;> apply hp1 <;> simp [hcon]
      rw [@List.find?_cons_of_neg _ (fun p => decide (p.1 = x) || decide (p.2 = y))
        (b1, b2) _ hp1] at h1
      have hcz : ¬b3 = z := by
        intro hcz
        have hp2 : (decide (b2 = y) || decide (b3 = z)) = true := by simp [hcz]
        rw [@List.find?_cons_of_pos _ (fun p => decide (p.1 = y) || decide (p.2 = z))
          (b2, b3) _ hp2] at h2
        simp only [Bool.and_eq_true, decide_eq_true_eq] at h2
        exact hb.2 h2.1
      have hp2 : ¬(decide (b2 = y) || decide (b3 = z)) = true := by
        simp [hb.2, hcz]
      rw [@List.find?_cons_of_neg _ (fun p => decide (p.1 = y) || decide (p.2 = z))
        (b2, b3) _ hp2] at h2
      have hp3 : ¬(decide (b1 = x) || decide (b3 = z)) = true := by
        simp [hb.1, hcz]
      rw [@List.find?_cons_of_neg _ (fun p => decide (p.1 = x) || decide (p.2 = z))
        (b1, b3) _ hp3]
      have := ih x y z
      simp only [varCheck] at this
      exact this h1 h2

/-- Transitivity of `alpha_equiv_impl` over componentwise-aligned contexts. -/
theorem alpha_impl_trans :
    ∀ (t1 t2 t3 : Term) (l : List (String × String × String)),
      alpha_equiv_impl t1 t2 (l.map fun q => (q.1, q.2.1)) = true →
      alpha_equiv_impl t2 t3 (l.map fun q => (q.2.1, q.2.2)) = true →
      alpha_equiv_impl t1 t3 (l.map fun q => (q.1, q.2.2)) = true := by
  intro t1
  induction t1 with
  | Var s =>
    intro t2 t3 l h1 h2
    cases t2 with
    | Lam _ _ => simp [alpha_equiv_impl] at h1
    | Appl _ _ => simp [alpha_equiv_impl] at h1
    | Var y =>
      cases t3 with
      | Lam _ _ => simp [alpha_equiv_impl] at h2
      | Appl _ _ => simp [alpha_equiv_impl] at h2
      | Var z =>
        simp only [alpha_equiv_impl] at h1 h2 ⊢
        exact varCheck_trans l s y z h1 h2
  | Lam param rule ih =>
    intro t2 t3 l h1 h2
    cases t2 with
    | Var _ => simp [alpha_equiv_impl] at h1
    | Appl _ _ => simp [alpha_equiv_impl] at h1
    | Lam param2 rule2 =>
      cases t3 with
      | Var _ => simp [alpha_equiv_impl] at h2
      | Appl _ _ => simp [alpha_equiv_impl] at h2
      | Lam param3 rule3 =>
        simp only [alpha_equiv_impl] at h1 h2 ⊢
        exact ih rule2 rule3 ((param, param2, param3) :: l) h1 h2
  | Appl left right ihl ihr =>
    intro t2 t3 l h1 h2
    cases t2 with
    | Var _ => simp [alpha_equiv_impl] at h1
    | Lam _ _ => simp [alpha_equiv_impl] at h1
    | Appl left2 right2 =>
      cases t3 with
      | Var _ => simp [alpha_equiv_impl] at h2
      | Lam _ _ => simp [alpha_equiv_impl] at h2
      | Appl left3 right3 =>
        simp only [alpha_equiv_impl, Bool.and_eq_true] at h1 h2 ⊢
        exact ⟨ihl left2 left3 l h1.1 h2.1, ihr right2 right3 l h1.2 h2.2⟩

end Term

namespace Term

theorem varCheck_cons_self (p z : String) (ctx : List (String × String)) :
    varCheck p z ((p, z) :: ctx) = true := by
  simp only [varCheck]
  rw [@List.find?_cons_of_pos _ (fun q => decide (q.1 = p) || decide (q.2 = z))
    (p, z) _ (by simp)]
  simp

theorem varCheck_cons_of_ne (x y a b : String) (ctx : List (String × String))
    (h1 : a ≠ x) (h2 : b ≠ y) :
    varCheck x y ((a, b) :: ctx) = varCheck x y ctx := by
  simp only [varCheck]
  rw [@List.find?_cons_of_neg _ (fun q => decide (q.1 = x) || decide (q.2 = y))
    (a, b) _ (by simp [h1, h2])]

/-- The substitution `subst t x w c` yields a term alpha-equivalent to `t`
under a context `ctx`, provided: all identifiers of `t` and the name `x`
are well formed at counter `c`; the context acts as the identity on the
free variables of `t` other than `x`; and either `x` is not free in `t`
at all, or `w` is a well-formed variable that `ctx` pairs with `x`.
This single statement covers both uses of `subst` in the engine: the
unconditional alpha-renaming of each traversed binder, and substitution
for a variable that does not occur. -/
theorem subst_alpha :
    ∀ (N : Nat) (t : Term) (x : String) (w : Term) (c : Nat)
      (ctx : List (String × String)),
      t.sizeT ≤ N →
      namesBelow c t →
      nameOK c x →
      (∀ m ∈ t.fv, m ≠ x → varCheck m m ctx = true) →
      (x ∉ t.fv ∨ ∃ z, w = Var z ∧ nameOK c z ∧ varCheck x z ctx = true) →
      alpha_equiv_impl t (subst t x w c).1 ctx = true := by
  intro N
  induction N with
  | zero => intro t x w c ctx h; have := t.one_le_sizeT; omega
  | succ N ih =>
    intro t x w c ctx h ht hx hctx hmode
    cases t with
    | Var s =>
      rw [subst_var]
      by_cases hs : s = x
      · cases hmode with
        | inl hxfv =>
          exact absurd (by simp [fv, hs]) hxfv
        | inr hz =>
          obtain ⟨z, rfl, hzOK, hvc⟩ := hz
          simp only [hs, if_pos]
          rw [alpha_equiv_impl]
          exact hvc
      · simp only [hs, if_neg, if_false]
        rw [alpha_equiv_impl]
        exact hctx s (by simp [fv]) hs
    | Lam param rule =>
      by_cases hp : param = x
      · subst hp
        rw [subst_lam_shadow]
        apply alpha_impl_refl
        intro m hm
        simp only [fv, Finset.mem_sdiff, Finset.mem_singleton] at hm
        exact hctx m (by simp [fv, hm.1, hm.2]) hm.2
      · rw [subst_lam param rule x w c hp]
        have hz1 : (get_fresh_ident param c).1 =
            stripDots param ++ "." ++ Nat.repr (c + 1) := rfl
        have hc1 : (get_fresh_ident param c).2 = c + 1 := rfl
        have hszr : rule.sizeT ≤ N := by simp [sizeT] at h; omega
        have hrules : namesBelow c rule := fun s hs =>
          ht s (List.mem_cons_of_mem _ hs)
        have hparamOK : nameOK c param := ht param (List.mem_cons_self _ _)
        have hz1OK : nameOK (c + 1) (get_fresh_ident param c).1 := by
          rw [hz1]; exact nameOK_gen param (c + 1) (c + 1) (le_refl _)
        have hclash : ∀ m, nameOK c m → m ≠ (get_fresh_ident param c).1 := by
          intro m hm
          rw [hz1]
          exact nameOK_ne_gen hm (stripDots param) (noDot_stripDots param)
            (c + 1) (by omega)
        have hxz1 : x ≠ (get_fresh_ident param c).1 := hclash x hx
        -- step 1: rule is alpha-equivalent to its fresh renaming
        have S1 : alpha_equiv_impl rule
            (subst rule param (Var (get_fresh_ident param c).1)
              (get_fresh_ident param c).2).1
            ((param, (get_fresh_ident param c).1) ::
              ctx.map fun q => (q.1, q.1)) = true := by
          apply ih rule param (Var (get_fresh_ident param c).1)
            (get_fresh_ident param c).2 _ hszr
          · rw [hc1]; exact namesBelow_mono (by omega) hrules
          · rw [hc1]; exact nameOK_mono (by omega) hparamOK
          · intro m hm hmp
            rw [varCheck_cons_of_ne m m param (get_fresh_ident param c).1 _
              (Ne.symm hmp)
              (Ne.symm (hclash m (hrules m (fv_subset_idents rule m hm))))]
            exact varCheck_diag m ctx
          · right
            exact ⟨(get_fresh_ident param c).1, rfl, by rw [hc1]; exact hz1OK,
              varCheck_cons_self param (get_fresh_ident param c).1 _⟩
        -- step 2: the renamed body admits the main substitution
        have hszA : (subst rule param (Var (get_fresh_ident param c).1)
            (get_fresh_ident param c).2).1.sizeT ≤ N := by
          rw [subst_size_var]; exact hszr
        have hcA := subst_counter_le N rule param
          (Var (get_fresh_ident param c).1) (get_fresh_ident param c).2 hszr
        have hstep : c ≤ (get_fresh_ident param c).2 := by rw [hc1]; omega
        have hcc := le_trans hstep hcA
        have hnamesA : namesBelow (subst rule param
            (Var (get_fresh_ident param c).1) (get_fresh_ident param c).2).2
            (subst rule param (Var (get_fresh_ident param c).1)
              (get_fresh_ident param c).2).1 := by
          apply subst_names N rule param _ _ hszr
          · rw [hc1]; exact namesBelow_mono (by omega) hrules
          · intro s hs
            simp only [idents, List.mem_singleton] at hs
            subst hs
            rw [hc1]; exact hz1OK
        have hfvA := subst_fv N rule param (Var (get_fresh_ident param c).1)
          (get_fresh_ident param c).2 hszr
        have S2 : alpha_equiv_impl
            (subst rule param (Var (get_fresh_ident param c).1)
              (get_fresh_ident param c).2).1
            (subst (subst rule param (Var (get_fresh_ident param c).1)
                (get_fresh_ident param c).2).1 x w
              (subst rule param (Var (get_fresh_ident param c).1)
                (get_fresh_ident param c).2).2).1
            (((get_fresh_ident param c).1, (get_fresh_ident param c).1) :: ctx)
            = true := by
          apply ih _ x w _ _ hszA hnamesA
          · exact nameOK_mono hcc hx
          · intro m hm hmx
            by_cases hmz : m = (get_fresh_ident param c).1
            · subst hmz
              exact varCheck_cons_self _ _ _
            · rw [varCheck_cons_of_ne m m _ _ _ (Ne.symm hmz) (Ne.symm hmz)]
              have hmem := hfvA hm
              simp only [fv, Finset.mem_union, Finset.mem_sdiff,
                Finset.mem_singleton] at hmem
              cases hmem with
              | inl hmem =>
                exact hctx m (by
                  simp only [fv, Finset.mem_sdiff, Finset.mem_singleton]
                  exact ⟨hmem.1, hmem.2⟩) hmx
              | inr hmz1 => exact absurd hmz1 hmz
          · cases hmode with
            | inl hxfv =>
              left
              intro hxA
              have hmem := hfvA hxA
              simp only [fv, Finset.mem_union, Finset.mem_sdiff,
                Finset.mem_singleton] at hmem
              cases hmem with
              | inl hmem =>
                exact hxfv (by
                  simp only [fv, Finset.mem_sdiff, Finset.mem_singleton]
                  exact ⟨hmem.1, hmem.2⟩)
              | inr hmz1 => exact hxz1 hmz1
            | inr hz =>
              obtain ⟨z, rfl, hzOK, hvc⟩ := hz
              right
              refine ⟨z, rfl, nameOK_mono hcc hzOK, ?_⟩
              rw [varCheck_cons_of_ne x z _ _ _ (Ne.symm hxz1)
                (Ne.symm (hclash z hzOK))]
              exact hvc
        -- step 3: compose the two alpha-equivalences
        have hmap12 : ((param, (get_fresh_ident param c).1,
              (get_fresh_ident param c).1) ::
              ctx.map fun q => (q.1, q.1, q.2)).map (fun q => (q.1, q.2.1)) =
            (param, (get_fresh_ident param c).1) ::
              ctx.map fun q => (q.1, q.1) := by
          simp [List.map_map, Function.comp]
        have hmap23 : ((param, (get_fresh_ident param c).1,
              (get_fresh_ident param c).1) ::
              ctx.map fun q => (q.1, q.1, q.2)).map (fun q => (q.2.1, q.2.2)) =
            ((get_fresh_ident param c).1, (get_fresh_ident param c).1) ::
              ctx := by
          simp [List.map_map, Function.comp]
          exact List.map_id'' (fun x => rfl) ctx
        have hmap13 : ((param, (get_fresh_ident param c).1,
              (get_fresh_ident param c).1) ::
              ctx.map fun q => (q.1, q.1, q.2)).map (fun q => (q.1, q.2.2)) =
            (param, (get_fresh_ident param c).1) :: ctx := by
          simp [List.map_map, Function.comp]
          exact List.map_id'' (fun x => rfl) ctx
        have htrans := alpha_impl_trans rule
          (subst rule param (Var (get_fresh_ident param c).1)
            (get_fresh_ident param c).2).1
          (subst (subst rule param (Var (get_fresh_ident param c).1)
              (get_fresh_ident param c).2).1 x w
            (subst rule param (Var (get_fresh_ident param c).1)
              (get_fresh_ident param c).2).2).1
          ((param, (get_fresh_ident param c).1, (get_fresh_ident param c).1) ::
            ctx.map fun q => (q.1, q.1, q.2))
          (by rw [hmap12]; exact S1) (by rw [hmap23]; exact S2)
        rw [hmap13] at htrans
        exact htrans
    | Appl left right =>
      rw [subst_appl]
      have hszl : left.sizeT ≤ N := by simp [sizeT] at h; omega
      have hszrr : right.sizeT ≤ N := by simp [sizeT] at h; omega
      have hlnames : namesBelow c left := fun s hs =>
        ht s (by rw [idents, List.mem_append]; exact Or.inl hs)
      have hrnames : namesBelow c right := fun s hs =>
        ht s (by rw [idents, List.mem_append]; exact Or.inr hs)
      have hcl := subst_counter_le N left x w c hszl
      have S1 : alpha_equiv_impl left (subst left x w c).1 ctx = true := by
        apply ih left x w c ctx hszl hlnames hx
        · intro m hm hmx
          exact hctx m (by simp [fv, hm]) hmx
        · cases hmode with
          | inl hxfv => exact Or.inl fun hc => hxfv (by simp [fv, hc])
          | inr hz => exact Or.inr hz
      have S2 : alpha_equiv_impl right
          (subst right x w (subst left x w c).2).1 ctx = true := by
        apply ih right x w (subst left x w c).2 ctx hszrr
          (namesBelow_mono hcl hrnames) (nameOK_mono hcl hx)
        · intro m hm hmx
          exact hctx m (by simp [fv, hm]) hmx
        · cases hmode with
          | inl hxfv => exact Or.inl fun hc => hxfv (by simp [fv, hc])
          | inr hz =>
            obtain ⟨z, rfl, hzOK, hvc⟩ := hz
            exact Or.inr ⟨z, rfl, nameOK_mono hcl hzOK, hvc⟩
      rw [alpha_equiv_impl]
      simp [S1, S2]

end Term

/-! ### Surface syntax: tokenizer and parser

The parser lives in `src/parse.rs`, but its grammar rules are in the pest
file `m3lc.pest`, which is not part of the sources provided; the token
shapes and production rules below are therefore modelled from the surface
grammar of spec §6 (`ident := [A-Za-z_][A-Za-z0-9_]*`, no `'.'`;
`lam := "fn" ident "=>" appl`; `appl := term (term)*` left-associative;
`term := lam | var | "(" appl ")"`), with the left-associative
tree-building taken from the prec-climber in `src/parse.rs`.  pest is a
PEG parser, so alternatives are ordered choice with backtracking; the
parser below takes fuel (a modelling artifact; sufficient fuel is
exhibited in the proofs). -/

/-- Tokens of the m3lc surface grammar (spec §6). -/
inductive Tok where
  | lparen : Tok
  | rparen : Tok
  | arrow : Tok
  | ident : String → Tok
deriving DecidableEq, Repr

/-- Identifier characters per spec §6: `[A-Za-z0-9_]` (the leading
character is further restricted by `validIdent`). -/
def isIdentChar (ch : Char) : Bool :=
  ch.isAlpha || ch.isDigit || ch = '_'

/-- Modelled from the spec: lexing of the surface syntax of §6, restricted
to the token shapes reachable from a rendered term (identifiers, `=>`,
parentheses, spaces). -/
def tokenize : List Char → Option (List Tok)
  | [] => some []
  | ch :: cs =>
    if ch = ' ' then tokenize cs
    else if ch = '(' then (tokenize cs).map (Tok.lparen :: ·)
    else if ch = ')' then (tokenize cs).map (Tok.rparen :: ·)
    else if ch = '=' then
      match cs with
      | '>' :: cs2 => (tokenize cs2).map (Tok.arrow :: ·)
      | _ => none
    else if isIdentChar ch then
      (tokenize (cs.dropWhile isIdentChar)).map
        (Tok.ident ⟨ch :: cs.takeWhile isIdentChar⟩ :: ·)
    else none
termination_by l => l.length
decreasing_by
  all_goals simp
  all_goals first
    | omega
    | exact Nat.lt_succ_of_le (List.Sublist.length_le (List.dropWhile_sublist _))

/-- The token stream of a rendered term: identifiers, `fn _ => _` for
lambdas, and the parenthesization scheme of `render` for applications. -/
def toks : Term → List Tok
  | Term.Var s => [Tok.ident s]
  | Term.Lam p r => Tok.ident "fn" :: Tok.ident p :: Tok.arrow :: toks r
  | Term.Appl l r =>
      (match l with
       | Term.Lam _ _ => Tok.lparen :: toks l ++ [Tok.rparen]
       | _ => toks l) ++
      (match r with
       | Term.Var _ => toks r
       | _ => Tok.lparen :: toks r ++ [Tok.rparen])

/-- Tokens of a term in left-child position of an application. -/
def toksL (t : Term) : List Tok :=
  match t with
  | Term.Lam _ _ => Tok.lparen :: toks t ++ [Tok.rparen]
  | _ => toks t

/-- Tokens of a term in right-child (argument) position of an application. -/
def toksR (t : Term) : List Tok :=
  match t with
  | Term.Var _ => toks t
  | _ => Tok.lparen :: toks t ++ [Tok.rparen]

theorem toks_appl (l r : Term) :
    toks (Term.Appl l r) = toksL l ++ toksR r := by
  cases l <;> cases r <;> rfl

/-- Modelled from the spec: PEG rule `var := ident`. -/
def parseVar : List Tok → Option (Term × List Tok)
  | Tok.ident s :: rest => some (Term.Var s, rest)
  | _ => none

mutual

/-- Modelled from the spec: PEG rule `term := lam | var | "(" appl ")"`,
ordered choice with backtracking. -/
def parseTerm : Nat → List Tok → Option (Term × List Tok)
  | 0, _ => none
  | n + 1, ts =>
    match parseLam n ts with
    | some q => some q
    | none =>
      match parseVar ts with
      | some q => some q
      | none => parseParen n ts

/-- Modelled from the spec: PEG rule `lam := "fn" ident "=>" appl`. -/
def parseLam : Nat → List Tok → Option (Term × List Tok)
  | n + 1, Tok.ident f :: Tok.ident x :: Tok.arrow :: rest =>
    if f = "fn" then
      (parseAppl n rest).map fun q => (Term.Lam x q.1, q.2)
    else none
  | _, _ => none

/-- Modelled from the spec: the parenthesized alternative of `term`. -/
def parseParen : Nat → List Tok → Option (Term × List Tok)
  | n + 1, Tok.lparen :: rest =>
    (parseAppl n rest).bind fun q =>
      match q.2 with
      | Tok.rparen :: rest2 => some (q.1, rest2)
      | _ => none
  | _, _ => none

/-- Modelled from the spec: PEG rule `appl := term (term)*`, built
left-associatively (the prec-climber of `src/parse.rs`). -/
def parseAppl : Nat → List Tok → Option (Term × List Tok)
  | 0, _ => none
  | n + 1, ts =>
    (parseTerm n ts).bind fun q => parseApplRest n q.1 q.2

/-- The `(term)*` loop of `appl`, folding applications to the left. -/
def parseApplRest : Nat → Term → List Tok → Option (Term × List Tok)
  | 0, _, _ => none
  | n + 1, acc, ts =>
    match parseTerm n ts with
    | some q => parseApplRest n (Term.Appl acc q.1) q.2
    | none => some (acc, ts)

end

/-! ### Parser correctness on rendered token streams -/

/-- Token suffixes at which an `appl` run must stop: end of input or a
closing parenthesis. -/
def stopperT (rest : List Tok) : Prop :=
  rest = [] ∨ ∃ l, rest = Tok.rparen :: l

/-- Token suffixes that cannot start with `ident =>` (so that a preceding
bare identifier is not mistaken for the start of a lambda). -/
def safeT (rest : List Tok) : Prop :=
  ∀ x l, rest ≠ Tok.ident x :: Tok.arrow :: l

theorem safeT_of_stopperT {rest : List Tok} (h : stopperT rest) : safeT rest := by
  cases h with
  | inl h => subst h; intro x l hc; simp at hc
  | inr h => obtain ⟨l, rfl⟩ := h; intro x l2 hc; simp at hc

theorem parseLam_lparen (n : Nat) (rest : List Tok) :
    parseLam n (Tok.lparen :: rest) = none := by
  cases n <;> rfl

theorem parseLam_nil (n : Nat) : parseLam n [] = none := by
  cases n <;> rfl

theorem parseLam_var (n : Nat) (v : String) (rest : List Tok)
    (h : safeT rest) : parseLam n (Tok.ident v :: rest) = none := by
  cases n with
  | zero => rfl
  | succ n =>
    cases rest with
    | nil => rfl
    | cons t2 r2 =>
      cases t2 with
      | lparen => rfl
      | rparen => rfl
      | arrow => rfl
      | ident x =>
        cases r2 with
        | nil => rfl
        | cons t3 r3 =>
          cases t3 with
          | lparen => rfl
          | rparen => rfl
          | ident _ => rfl
          | arrow => exact absurd rfl (h x r3)

theorem parseTerm_stopper (n : Nat) (rest : List Tok) (h : stopperT rest) :
    parseTerm n rest = none := by
  cases n with
  | zero => rfl
  | succ n =>
    have hL : parseLam n rest = none := by
      cases h with
      | inl h => subst h; exact parseLam_nil n
      | inr h => obtain ⟨l, rfl⟩ := h; cases n <;> rfl
    have hV : parseVar rest = none := by
      cases h with
      | inl h => subst h; rfl
      | inr h => obtain ⟨l, rfl⟩ := h; rfl
    have hP : parseParen n rest = none := by
      cases h with
      | inl h => subst h; cases n <;> rfl
      | inr h => obtain ⟨l, rfl⟩ := h; cases n <;> rfl
    rw [parseTerm, hL, hV, hP]

/-- The head of the left spine of an application. -/
def spineHead : Term → Term
  | Term.Var s => Term.Var s
  | Term.Lam p r => Term.Lam p r
  | Term.Appl l _ => spineHead l

/-- The argument list of the left spine of an application. -/
def spineArgs : Term → List Term
  | Term.Var _ => []
  | Term.Lam _ _ => []
  | Term.Appl l r => spineArgs l ++ [r]

theorem spineHead_not_appl :
    ∀ t l r, spineHead t ≠ Term.Appl l r := by
  intro t
  induction t with
  | Var s => intro l r h; simp [spineHead] at h
  | Lam p rule _ => intro l r h; simp [spineHead] at h
  | Appl tl tr ihl _ => intro l r; rw [spineHead]; exact ihl l r

theorem toksL_eq_toksR {t : Term} (h : ∀ l r, t ≠ Term.Appl l r) :
    toksL t = toksR t := by
  cases t with
  | Var _ => rfl
  | Lam _ _ => rfl
  | Appl l r => exact absurd rfl (h l r)

theorem toksL_spine :
    ∀ t : Term, toksL t =
      toksR (spineHead t) ++ ((spineArgs t).map toksR).flatten := by
  intro t
  induction t with
  | Var s => simp [toksL, toksR, spineHead, spineArgs]
  | Lam p rule _ => simp [toksL, toksR, spineHead, spineArgs]
  | Appl l r ihl _ =>
    rw [spineHead, spineArgs]
    show toks (Term.Appl l r) = _
    rw [toks_appl, ihl]
    simp

theorem toks_spine (l r : Term) :
    toks (Term.Appl l r) =
      toksR (spineHead (Term.Appl l r)) ++
        ((spineArgs (Term.Appl l r)).map toksR).flatten :=
  toksL_spine (Term.Appl l r)

theorem foldl_spine :
    ∀ t : Term,
      List.foldl Term.Appl (spineHead t) (spineArgs t) = t := by
  intro t
  induction t with
  | Var s => rfl
  | Lam p rule _ => rfl
  | Appl l r ihl _ =>
    rw [spineHead, spineArgs, List.foldl_append, ihl]
    rfl

theorem size_spine :
    ∀ t : Term, t.sizeT =
      (spineHead t).sizeT + ((spineArgs t).map Term.sizeT).sum +
        (spineArgs t).length := by
  intro t
  induction t with
  | Var s => simp [spineHead, spineArgs, Term.sizeT]
  | Lam p rule _ => simp [spineHead, spineArgs]
  | Appl l r ihl _ =>
    rw [spineHead, spineArgs]
    show l.sizeT + r.sizeT + 1 = _
    rw [ihl]
    simp [List.sum_append]
    omega

theorem spineArgs_length_pos (l r : Term) :
    1 ≤ (spineArgs (Term.Appl l r)).length := by
  rw [spineArgs]
  simp

/-- The token blocks of the spine arguments, followed by a stopper, never
begin with `ident =>`. -/
theorem safeT_args :
    ∀ (args : List Term) (rest : List Tok), stopperT rest →
      safeT ((args.map toksR).flatten ++ rest) := by
  intro args rest hrest
  cases args with
  | nil =>
    simpa using safeT_of_stopperT hrest
  | cons a as =>
    simp only [List.map_cons, List.flatten_cons, List.append_assoc]
    cases a with
    | Lam _ _ => intro x l hc; simp [toksR] at hc
    | Appl _ _ => intro x l hc; simp [toksR] at hc
    | Var v =>
      intro x l hc
      simp only [toksR, toks, List.cons_append, List.cons.injEq] at hc
      -- second token is the head of the following blocks (or the stopper)
      cases as with
      | nil =>
        cases hrest with
        | inl h => subst h; simp at hc
        | inr h => obtain ⟨l2, rfl⟩ := h; simp at hc
      | cons b bs =>
        cases b with
        | Var w => simp [toksR, toks] at hc
        | Lam _ _ => simp [toksR] at hc
        | Appl _ _ => simp [toksR] at hc

/-- Fuel sufficient for `parseAppl` on the tokens of `t`. -/
def FA (t : Term) : Nat := 5 * t.sizeT + 1

/-- Fuel sufficient for `parseTerm` on the argument tokens of `t`. -/
def FT (t : Term) : Nat := 5 * t.sizeT + 4

/-- Fuel sufficient for `parseApplRest` on the token blocks of `args`. -/
def FR (args : List Term) : Nat :=
  5 * (args.map Term.sizeT).sum + 5 * args.length + 2

theorem parseTerm_var (n : Nat) (v : String) (rest : List Tok)
    (hn : 1 ≤ n) (hsafe : safeT rest) :
    parseTerm n (Tok.ident v :: rest) = some (Term.Var v, rest) := by
  obtain ⟨m, rfl⟩ : ∃ m, n = m + 1 := ⟨n - 1, by omega⟩
  rw [parseTerm, parseLam_var m v rest hsafe]
  rfl

theorem parseApplRest_stop (n : Nat) (acc : Term) (rest : List Tok)
    (hn : 1 ≤ n) (hrest : stopperT rest) :
    parseApplRest n acc rest = some (acc, rest) := by
  obtain ⟨m, rfl⟩ : ∃ m, n = m + 1 := ⟨n - 1, by omega⟩
  rw [parseApplRest, parseTerm_stopper m rest hrest]

theorem length_le_sum_sizeT :
    ∀ (args : List Term), args.length ≤ (args.map Term.sizeT).sum := by
  intro args
  induction args with
  | nil => simp
  | cons a as ih =>
    simp only [List.length_cons, List.map_cons, List.sum_cons]
    have := a.one_le_sizeT
    omega

theorem mem_le_sum_sizeT :
    ∀ (args : List Term) (a : Term), a ∈ args →
      a.sizeT ≤ (args.map Term.sizeT).sum := by
  intro args
  induction args with
  | nil => intro a ha; simp at ha
  | cons b bs ih =>
    intro a ha
    simp only [List.map_cons, List.sum_cons]
    rcases List.mem_cons.1 ha with rfl | ha
    · omega
    · have := ih a ha
      omega

/-- `parseApplRest` folds a sequence of argument token blocks into a
left-nested application. -/
theorem parseApplRest_args :
    ∀ (args : List Term),
      (∀ a ∈ args, ∀ (n : Nat) (rest : List Tok), FT a ≤ n → safeT rest →
        parseTerm n (toksR a ++ rest) = some (a, rest)) →
      ∀ (n : Nat) (acc : Term) (rest : List Tok), FR args ≤ n →
        stopperT rest →
        parseApplRest n acc ((args.map toksR).flatten ++ rest) =
          some (List.foldl Term.Appl acc args, rest) := by
  intro args
  induction args with
  | nil =>
    intro _ n acc rest hn hrest
    simp only [List.map_nil, List.flatten_nil, List.nil_append, List.foldl_nil]
    exact parseApplRest_stop n acc rest (by simp [FR] at hn; omega) hrest
  | cons a as ih =>
    intro hPT n acc rest hn hrest
    have hsz : FR (a :: as) = 5 * a.sizeT + 5 * (as.map Term.sizeT).sum +
        5 * as.length + 7 := by
      simp [FR]; ring
    obtain ⟨m, rfl⟩ : ∃ m, n = m + 1 := ⟨n - 1, by omega⟩
    simp only [List.map_cons, List.flatten_cons, List.append_assoc]
    rw [parseApplRest]
    rw [hPT a (List.mem_cons_self a as) m ((as.map toksR).flatten ++ rest)
      (by rw [hsz] at hn; simp [FT]; omega) (safeT_args as rest hrest)]
    rw [List.foldl_cons]
    exact ih (fun b hb => hPT b (List.mem_cons_of_mem a hb)) m
      (Term.Appl acc a) rest (by rw [hsz] at hn; simp [FR]; omega) hrest

/-- Joint parser-correctness: on the token stream of a rendered term,
`parseAppl` (resp. `parseTerm` on an argument block) reconstructs exactly
the original term, leaving the stopper suffix untouched. -/
theorem parse_toks :
    ∀ (s : Nat) (t : Term), t.sizeT ≤ s →
      (∀ (n : Nat) (rest : List Tok), FA t ≤ n → stopperT rest →
        parseAppl n (toks t ++ rest) = some (t, rest)) ∧
      (∀ (n : Nat) (rest : List Tok), FT t ≤ n → safeT rest →
        parseTerm n (toksR t ++ rest) = some (t, rest)) := by
  intro s
  induction s with
  | zero => intro t h; have := t.one_le_sizeT; omega
  | succ s ih =>
    intro t hts
    have hPA : ∀ (n : Nat) (rest : List Tok), FA t ≤ n → stopperT rest →
        parseAppl n (toks t ++ rest) = some (t, rest) := by
      cases t with
      | Var v =>
        intro n rest hn hrest
        have hn6 : 6 ≤ n := by simp [FA, Term.sizeT] at hn; omega
        obtain ⟨m, rfl⟩ : ∃ m, n = m + 1 := ⟨n - 1, by omega⟩
        rw [parseAppl]
        rw [show toks (Term.Var v) ++ rest = Tok.ident v :: rest from rfl]
        rw [parseTerm_var m v rest (by omega) (safeT_of_stopperT hrest)]
        rw [Option.some_bind]
        exact parseApplRest_stop m (Term.Var v) rest (by omega) hrest
      | Lam p rule =>
        intro n rest hn hrest
        have hszr : rule.sizeT ≤ s := by simp [Term.sizeT] at hts; omega
        have hn6 : 5 * rule.sizeT + 6 ≤ n := by
          simp [FA, Term.sizeT] at hn; omega
        obtain ⟨m, rfl⟩ : ∃ m, n = m + 1 := ⟨n - 1, by omega⟩
        obtain ⟨m2, rfl⟩ : ∃ m2, m = m2 + 1 := ⟨m - 1, by omega⟩
        obtain ⟨m3, rfl⟩ : ∃ m3, m2 = m3 + 1 := ⟨m2 - 1, by omega⟩
        have hInner := (ih rule hszr).1 m3 rest (by simp [FA]; omega) hrest
        have hL : parseLam (m3 + 1)
            (Tok.ident "fn" :: Tok.ident p :: Tok.arrow :: (toks rule ++ rest))
            = some (Term.Lam p rule, rest) := by
          rw [parseLam, if_pos rfl, hInner]
          rfl
        rw [parseAppl]
        rw [show toks (Term.Lam p rule) ++ rest =
          Tok.ident "fn" :: Tok.ident p :: Tok.arrow :: (toks rule ++ rest)
          from by simp [toks]]
        rw [parseTerm, hL]
        show parseApplRest (m3 + 1 + 1) (Term.Lam p rule) rest = _
        exact parseApplRest_stop _ _ rest (by omega) hrest
      | Appl l r =>
        intro n rest hn hrest
        have hsize := size_spine (Term.Appl l r)
        have hlen := spineArgs_length_pos l r
        have hsum := length_le_sum_sizeT (spineArgs (Term.Appl l r))
        have hhd := (spineHead (Term.Appl l r)).one_le_sizeT
        have hn16 : 5 * (Term.Appl l r).sizeT + 1 ≤ n := by
          simp [FA] at hn; omega
        obtain ⟨m, rfl⟩ : ∃ m, n = m + 1 := ⟨n - 1, by omega⟩
        rw [parseAppl]
        rw [toks_spine l r, List.append_assoc]
        have hheadsz : (spineHead (Term.Appl l r)).sizeT ≤ s := by omega
        have hPT := (ih (spineHead (Term.Appl l r)) hheadsz).2 m
          (((spineArgs (Term.Appl l r)).map toksR).flatten ++ rest)
          (by simp [FT]; omega)
          (safeT_args (spineArgs (Term.Appl l r)) rest hrest)
        rw [hPT, Option.some_bind]
        have hargsPT : ∀ a ∈ spineArgs (Term.Appl l r),
            ∀ (k : Nat) (rest2 : List Tok), FT a ≤ k → safeT rest2 →
            parseTerm k (toksR a ++ rest2) = some (a, rest2) := by
          intro a ha
          have hasz : a.sizeT ≤ s := by
            have h1 := mem_le_sum_sizeT (spineArgs (Term.Appl l r)) a ha
            omega
          exact (ih a hasz).2
        have hR := parseApplRest_args (spineArgs (Term.Appl l r)) hargsPT m
          (spineHead (Term.Appl l r)) rest (by simp [FR]; omega) hrest
        rw [hR, foldl_spine]
    refine ⟨hPA, ?_⟩
    intro n rest hn hsafe
    by_cases hv : ∃ v, t = Term.Var v
    · obtain ⟨v, rfl⟩ := hv
      exact parseTerm_var n v rest (by simp [FT, Term.sizeT] at hn; omega) hsafe
    · have htoksR : toksR t = Tok.lparen :: toks t ++ [Tok.rparen] := by
        cases t with
        | Var v => exact absurd ⟨v, rfl⟩ hv
        | Lam _ _ => rfl
        | Appl _ _ => rfl
      have hn9 : 5 * t.sizeT + 4 ≤ n := by simpa [FT] using hn
      have hsz := t.one_le_sizeT
      obtain ⟨m, rfl⟩ : ∃ m, n = m + 1 := ⟨n - 1, by omega⟩
      obtain ⟨m2, rfl⟩ : ∃ m2, m = m2 + 1 := ⟨m - 1, by omega⟩
      have hsplit : toksR t ++ rest =
          Tok.lparen :: (toks t ++ (Tok.rparen :: rest)) := by
        rw [htoksR]; simp
      rw [hsplit, parseTerm, parseLam_lparen]
      have hA := hPA m2 (Tok.rparen :: rest) (by simp [FA]; omega)
        (Or.inr ⟨rest, rfl⟩)
      show parseParen (m2 + 1) (Tok.lparen :: (toks t ++ (Tok.rparen :: rest)))
        = some (t, rest)
      rw [parseParen, hA, Option.some_bind]

/-! ### Tokenization of rendered terms -/

/-- The first character of an identifier must be a letter or `'_'`
(spec §6). -/
def firstCharOK : List Char → Bool
  | [] => false
  | ch :: _ => ch.isAlpha || ch = '_'

/-- A well-formed identifier of the surface grammar (spec §6):
nonempty, `[A-Za-z0-9_]` characters only (in particular no `'.'`), and a
non-digit first character. -/
def validIdent (s : String) : Prop :=
  s.data ≠ [] ∧ (∀ ch ∈ s.data, isIdentChar ch = true) ∧
    firstCharOK s.data = true

instance : DecidablePred validIdent := fun s => by
  unfold validIdent; infer_instance

/-- All identifiers of the term are well formed: the term is expressible
by the surface grammar. -/
def validTerm (t : Term) : Prop := ∀ s ∈ t.idents, validIdent s

instance : DecidablePred validTerm := fun t => by
  unfold validTerm; infer_instance

/-- Character suffixes that cannot extend an identifier run: empty, or
starting with a space or a closing parenthesis. -/
def bnd (tail : List Char) : Prop :=
  tail = [] ∨ (∃ l, tail = ' ' :: l) ∨ (∃ l, tail = ')' :: l)

theorem identChar_props {ch : Char} (h : isIdentChar ch = true) :
    ¬ch = ' ' ∧ ¬ch = '(' ∧ ¬ch = ')' ∧ ¬ch = '=' := by
  refine ⟨?_, ?_, ?_, ?_⟩ <;> rintro rfl <;> exact absurd h (by decide)

theorem bnd_no_ident {tail : List Char} (h : bnd tail) :
    tail.takeWhile isIdentChar = [] ∧ tail.dropWhile isIdentChar = tail := by
  rcases h with rfl | ⟨l, rfl⟩ | ⟨l, rfl⟩ <;>
    simp [List.takeWhile_cons, List.dropWhile_cons,
      show isIdentChar ' ' = false from rfl,
      show isIdentChar ')' = false from rfl]

theorem tokenize_space (l : List Char) : tokenize (' ' :: l) = tokenize l := by
  rw [tokenize.eq_def]
  simp

theorem tokenize_lparen (l : List Char) :
    tokenize ('(' :: l) = (tokenize l).map (Tok.lparen :: ·) := by
  rw [tokenize.eq_def]
  simp

theorem tokenize_rparen (l : List Char) :
    tokenize (')' :: l) = (tokenize l).map (Tok.rparen :: ·) := by
  rw [tokenize.eq_def]
  simp

theorem tokenize_arrow (l : List Char) :
    tokenize ('=' :: '>' :: l) = (tokenize l).map (Tok.arrow :: ·) := by
  rw [tokenize.eq_def]
  simp [show isIdentChar '=' = false from rfl]

/-- Lexing an identifier run: a valid identifier followed by a non-ident
suffix produces exactly one `ident` token. -/
theorem tokenize_ident (s : String) (tail : List Char) (hval : validIdent s)
    (htail : tail.takeWhile isIdentChar = [] ∧
      tail.dropWhile isIdentChar = tail) :
    tokenize (s.data ++ tail) = (tokenize tail).map (Tok.ident s :: ·) := by
  obtain ⟨hne, hall, _⟩ := hval
  cases hd : s.data with
  | nil => exact absurd hd hne
  | cons ch cs0 =>
    have hch : isIdentChar ch = true := hall ch (by rw [hd]; exact List.mem_cons_self _ _)
    have hcs0 : ∀ a ∈ cs0, isIdentChar a = true := fun a ha =>
      hall a (by rw [hd]; exact List.mem_cons_of_mem _ ha)
    obtain ⟨h1, h2, h3, h4⟩ := identChar_props hch
    rw [List.cons_append, tokenize.eq_def]
    simp only [if_neg h1, if_neg h2, if_neg h3, if_neg h4, if_pos hch]
    have htw : (cs0 ++ tail).takeWhile isIdentChar = cs0 := by
      rw [List.takeWhile_append_of_pos hcs0, htail.1, List.append_nil]
    have hdw : (cs0 ++ tail).dropWhile isIdentChar = tail := by
      rw [List.dropWhile_append_of_pos hcs0, htail.2]
    rw [htw, hdw]
    have hmk : (⟨ch :: cs0⟩ : String) = s := by rw [← hd]
    rw [hmk]

theorem validTerm_lam {p : String} {rule : Term}
    (h : validTerm (Term.Lam p rule)) : validIdent p ∧ validTerm rule :=
  ⟨h p (List.mem_cons_self _ _),
    fun s hs => h s (List.mem_cons_of_mem _ hs)⟩

theorem validTerm_appl {l r : Term} (h : validTerm (Term.Appl l r)) :
    validTerm l ∧ validTerm r :=
  ⟨fun s hs => h s (by rw [Term.idents, List.mem_append]; exact Or.inl hs),
    fun s hs => h s (by rw [Term.idents, List.mem_append]; exact Or.inr hs)⟩

/-- Whether a term is a lambda (parenthesized on the left of an
application by `render`). -/
def isLamB : Term → Bool
  | Term.Lam _ _ => true
  | _ => false

/-- Whether a term is a variable (the only right-of-application position
printed without parentheses by `render`). -/
def isVarB : Term → Bool
  | Term.Var _ => true
  | _ => false

/-- Closed form of `render` on applications: parenthesize a lambda on the
left, and anything but a variable on the right. -/
theorem render_appl (l r : Term) :
    Term.render (Term.Appl l r) =
      (if isLamB l then "(" ++ Term.render l ++ ")" else Term.render l) ++
        " " ++
        (if isVarB r then Term.render r
          else "(" ++ Term.render r ++ ")") := by
  cases l <;> cases r <;> rfl

theorem toksL_eq (l : Term) :
    toksL l = if isLamB l then Tok.lparen :: toks l ++ [Tok.rparen]
      else toks l := by
  cases l <;> rfl

theorem toksR_eq (r : Term) :
    toksR r = if isVarB r then toks r
      else Tok.lparen :: toks r ++ [Tok.rparen] := by
  cases r <;> rfl

/-- Lexing the rendering of a valid term, followed by any boundary
suffix, produces exactly its token stream. -/
theorem tokenize_render :
    ∀ (t : Term) (tail : List Char) (ts : List Tok), validTerm t →
      bnd tail → tokenize tail = some ts →
      tokenize ((Term.render t).data ++ tail) = some (toks t ++ ts) := by
  intro t
  induction t with
  | Var v =>
    intro tail ts hval hbnd htok
    have hv := hval v (List.mem_cons_self _ _)
    rw [show (Term.render (Term.Var v)).data = v.data from rfl]
    rw [tokenize_ident v tail hv (bnd_no_ident hbnd), htok]
    rfl
  | Lam p rule ih =>
    intro tail ts hval hbnd htok
    obtain ⟨hp, hrule⟩ := validTerm_lam hval
    have hdata : (Term.render (Term.Lam p rule)).data ++ tail =
        "fn".data ++ (' ' :: (p.data ++
          (' ' :: ('=' :: ('>' :: (' ' ::
            ((Term.render rule).data ++ tail))))))) := by
      show ((("fn " ++ p) ++ " => ") ++ Term.render rule).data ++ tail = _
      simp [String.data_append,
        show ("fn " : String).data = ['f', 'n', ' '] from rfl,
        show (" => " : String).data = [' ', '=', '>', ' '] from rfl,
        show ("fn" : String).data = ['f', 'n'] from rfl]
    have hrec : tokenize ((Term.render rule).data ++ tail) =
        some (toks rule ++ ts) := ih tail ts hrule hbnd htok
    have h3 : tokenize (' ' :: ((Term.render rule).data ++ tail)) =
        some (toks rule ++ ts) := by rw [tokenize_space]; exact hrec
    have h4 : tokenize ('=' :: ('>' :: (' ' ::
        ((Term.render rule).data ++ tail)))) =
        some (Tok.arrow :: (toks rule ++ ts)) := by
      rw [tokenize_arrow, h3]
      rfl
    have h5 : tokenize (' ' :: ('=' :: ('>' :: (' ' ::
        ((Term.render rule).data ++ tail))))) =
        some (Tok.arrow :: (toks rule ++ ts)) := by
      rw [tokenize_space]; exact h4
    have h6 : tokenize (p.data ++ (' ' :: ('=' :: ('>' :: (' ' ::
        ((Term.render rule).data ++ tail)))))) =
        some (Tok.ident p :: (Tok.arrow :: (toks rule ++ ts))) := by
      rw [tokenize_ident p _ hp (bnd_no_ident (Or.inr (Or.inl ⟨_, rfl⟩))), h5]
      rfl
    have h7 : tokenize (' ' :: (p.data ++ (' ' :: ('=' :: ('>' :: (' ' ::
        ((Term.render rule).data ++ tail))))))) =
        some (Tok.ident p :: (Tok.arrow :: (toks rule ++ ts))) := by
      rw [tokenize_space]; exact h6
    rw [hdata,
      tokenize_ident "fn" _ (by decide)
        (bnd_no_ident (Or.inr (Or.inl ⟨_, rfl⟩))), h7]
    rfl
  | Appl l r ihl ihr =>
    intro tail ts hval hbnd htok
    obtain ⟨hl, hr⟩ := validTerm_appl hval
    have hright : tokenize ((if isVarB r then Term.render r
        else "(" ++ Term.render r ++ ")").data ++ tail) =
        some (toksR r ++ ts) := by
      by_cases hvr : isVarB r = true
      · rw [if_pos hvr, toksR_eq, if_pos hvr]
        exact ihr tail ts hr hbnd htok
      · rw [if_neg hvr]
        have hdata2 : ("(" ++ Term.render r ++ ")").data ++ tail =
            '(' :: ((Term.render r).data ++ (')' :: tail)) := by
          simp [String.data_append,
            show ("(" : String).data = ['('] from rfl,
            show (")" : String).data = [')'] from rfl]
        have hin : tokenize (')' :: tail) = some (Tok.rparen :: ts) := by
          rw [tokenize_rparen, htok]
          rfl
        rw [hdata2, tokenize_lparen,
          ihr (')' :: tail) (Tok.rparen :: ts) hr
            (Or.inr (Or.inr ⟨tail, rfl⟩)) hin,
          toksR_eq, if_neg hvr]
        simp
    have hmid : tokenize (' ' :: ((if isVarB r then Term.render r
        else "(" ++ Term.render r ++ ")").data ++ tail)) =
        some (toksR r ++ ts) := by
      rw [tokenize_space]; exact hright
    have hleft : tokenize ((if isLamB l then "(" ++ Term.render l ++ ")"
        else Term.render l).data ++ (' ' :: ((if isVarB r then Term.render r
          else "(" ++ Term.render r ++ ")").data ++ tail))) =
        some (toksL l ++ (toksR r ++ ts)) := by
      by_cases hll : isLamB l = true
      · rw [if_pos hll]
        have hdata3 : ("(" ++ Term.render l ++ ")").data ++
            (' ' :: ((if isVarB r then Term.render r
              else "(" ++ Term.render r ++ ")").data ++ tail)) =
            '(' :: ((Term.render l).data ++ (')' :: (' ' ::
              ((if isVarB r then Term.render r
                else "(" ++ Term.render r ++ ")").data ++ tail)))) := by
          simp [String.data_append,
            show ("(" : String).data = ['('] from rfl,
            show (")" : String).data = [')'] from rfl]
        have h9 : tokenize (')' :: (' ' :: ((if isVarB r then Term.render r
            else "(" ++ Term.render r ++ ")").data ++ tail))) =
            some (Tok.rparen :: (toksR r ++ ts)) := by
          rw [tokenize_rparen, tokenize_space, hright]
          rfl
        rw [hdata3, tokenize_lparen,
          ihl _ _ hl (Or.inr (Or.inr ⟨_, rfl⟩)) h9,
          toksL_eq, if_pos hll]
        simp
      · rw [if_neg hll]
        rw [ihl _ _ hl (Or.inr (Or.inl ⟨_, rfl⟩)) hmid,
          toksL_eq, if_neg hll]
    have hdata4 : (Term.render (Term.Appl l r)).data ++ tail =
        (if isLamB l then "(" ++ Term.render l ++ ")"
          else Term.render l).data ++ (' ' :: ((if isVarB r then Term.render r
            else "(" ++ Term.render r ++ ")").data ++ tail)) := by
      rw [render_appl]
      simp [String.data_append, show (" " : String).data = [' '] from rfl]
    rw [hdata4, hleft, toks_appl]
    simp

/-- Modelled from the spec: `to_term` from `src/parse.rs` — parse an
input string as an `appl` production, requiring the whole input to be
consumed.  The grammar rules come from spec §6 (the pest grammar file is
not in the provided sources); the fuel is a modelling artifact. -/
def to_term (fuel : Nat) (input : String) : Option Term :=
  (tokenize input.data).bind fun ts =>
    (parseAppl fuel ts).bind fun q =>
      if q.2 = [] then some q.1 else none

/-- Parsing the rendering of any grammar-expressible term succeeds and
returns the term itself (syntactically, hence also up to alpha). -/
theorem round_trip (t : Term) (hval : validTerm t) :
    to_term (FA t) (Term.render t) = some t := by
  have htok := tokenize_render t [] [] hval (Or.inl rfl)
    (by rw [tokenize.eq_def])
  simp only [List.append_nil] at htok
  have hparse := (parse_toks t.sizeT t (le_refl _)).1 (FA t) []
    (le_refl _) (Or.inl rfl)
  simp only [List.append_nil] at hparse
  rw [to_term, htok, Option.some_bind, hparse, Option.some_bind]
  rfl

/-! ### Remaining helpers for the claim theorems -/

namespace Term

theorem varCheck_nil (m : String) : varCheck m m [] = true := by
  simp [varCheck]

theorem alpha_equiv_refl (t : Term) : alpha_equiv t t = true :=
  alpha_impl_refl t [] fun m _ => varCheck_nil m

end Term

/-- `N` successive calls to `get_fresh_ident`, threading the counter. -/
def freshList : List String → Nat → List String × Nat
  | [], c => ([], c)
  | b :: bs, c =>
    let p := get_fresh_ident b c
    let q := freshList bs p.2
    (p.1 :: q.1, q.2)

theorem freshList_mem_form :
    ∀ (bs : List String) (c : Nat) (z : String), z ∈ (freshList bs c).1 →
      ∃ b0 k, noDot b0 ∧ c < k ∧ z = b0 ++ "." ++ Nat.repr k := by
  intro bs
  induction bs with
  | nil => intro c z hz; simp [freshList] at hz
  | cons b bs ih =>
    intro c z hz
    rw [freshList] at hz
    rcases List.mem_cons.1 hz with rfl | hz
    · exact ⟨stripDots b, c + 1, noDot_stripDots b, by omega, rfl⟩
    · obtain ⟨b0, k, hb0, hk, hform⟩ := ih (c + 1) z hz
      exact ⟨b0, k, hb0, by omega, hform⟩

theorem freshList_nodup :
    ∀ (bs : List String) (c : Nat), (freshList bs c).1.Nodup := by
  intro bs
  induction bs with
  | nil => intro c; simp [freshList]
  | cons b bs ih =>
    intro c
    rw [freshList]
    refine List.nodup_cons.2 ⟨?_, ih (c + 1)⟩
    intro hmem
    obtain ⟨b0, k, hb0, hk, hform⟩ := freshList_mem_form bs (c + 1) _ hmem
    have hzOK : nameOK (c + 1) (get_fresh_ident b c).1 :=
      nameOK_gen b (c + 1) (c + 1) (le_refl _)
    exact nameOK_ne_gen hzOK b0 hb0 k hk hform

theorem freshList_spec :
    ∀ (bs : List String) (c : Nat),
      (freshList bs c).1 =
        bs.mapIdx (fun i b => stripDots b ++ "." ++ Nat.repr (c + i + 1)) ∧
      (freshList bs c).2 = c + bs.length := by
  intro bs
  induction bs with
  | nil => intro c; simp [freshList]
  | cons b bs ih =>
    intro c
    rw [freshList]
    simp only [get_fresh_ident]
    obtain ⟨ih1, ih2⟩ := ih (c + 1)
    constructor
    · rw [List.mapIdx_cons]
      refine List.cons_eq_cons.2 ⟨by simp, ?_⟩
      rw [ih1]
      have hfun : (fun i (b : String) =>
          stripDots b ++ "." ++ Nat.repr (c + 1 + i + 1)) =
          fun i b => stripDots b ++ "." ++ Nat.repr (c + (i + 1) + 1) := by
        funext i b
        have : c + 1 + i + 1 = c + (i + 1) + 1 := by omega
        rw [this]
      rw [hfun]
    · rw [ih2, List.length_cons]
      omega

/-! ## Claim theorems -/

open Term

/-- C1: Capture-avoiding substitution.  Substituting a term `s` with `y`
free into the body of `Lam y (Var x)` for `x` yields `Lam y1 s` for a
fresh `y1` distinct from `y` and not free in `s`; `y` stays free in the
result (it is never captured), and the result is alpha-equivalent to
`Lam w s` for every `w` not free in `s`.  The hypothesis `namesBelow c s`
is the data-model invariant of spec §3 (identifiers are user-written and
dot-free, or were produced by earlier fresh-name calls). -/
theorem C1_subst_no_capture (x y : String) (s : Term) (c : Nat)
    (hxy : x ≠ y) (hy : y ∈ s.fv) (hs : namesBelow c s) :
    ∃ y1, subst (Lam y (Var x)) x s c = (Lam y1 s, c + 1) ∧
      y1 ≠ y ∧ y1 ∉ s.fv ∧ y ∈ (Lam y1 s).fv ∧
      ∀ w, w ∉ s.fv → alpha_equiv (Lam y1 s) (Lam w s) = true := by
  have hyx : y ≠ x := Ne.symm hxy
  have hz1 : (get_fresh_ident y c).1 = stripDots y ++ "." ++ Nat.repr (c + 1) :=
    rfl
  have hyOK : nameOK c y := hs y (fv_subset_idents s y hy)
  have hzy : (get_fresh_ident y c).1 ≠ y := by
    intro he
    exact nameOK_ne_gen hyOK (stripDots y) (noDot_stripDots y) (c + 1)
      (by omega) (he.symm.trans hz1)
  have hzfv : (get_fresh_ident y c).1 ∉ s.fv := by
    intro hmem
    have hmOK := hs _ (fv_subset_idents s _ hmem)
    exact nameOK_ne_gen hmOK (stripDots y) (noDot_stripDots y) (c + 1)
      (by omega) hz1
  refine ⟨(get_fresh_ident y c).1, ?_, hzy, hzfv, ?_, ?_⟩
  · rw [subst_lam y (Var x) x s c hyx]
    simp [subst_var, hxy, get_fresh_ident]
  · simp only [fv, Finset.mem_sdiff, Finset.mem_singleton]
    exact ⟨hy, fun he => hzy (he ▸ rfl)⟩
  · intro w hw
    show alpha_equiv_impl s s [((get_fresh_ident y c).1, w)] = true
    apply alpha_impl_refl
    intro m hm
    rw [varCheck_cons_of_ne m m _ _ _
      (fun he => hzfv (by rw [he]; exact hm))
      (fun he => hw (by rw [he]; exact hm))]
    exact varCheck_nil m

/-- C1 witness. -/
theorem C1_subst_no_capture_witness :
    ∃ y1, subst (Lam "y" (Var "x")) "x" (Var "y") 0 = (Lam y1 (Var "y"), 1) ∧
      y1 ≠ "y" ∧ y1 ∉ (Var "y").fv ∧ "y" ∈ (Lam y1 (Var "y")).fv ∧
      ∀ w, w ∉ (Var "y").fv →
        alpha_equiv (Lam y1 (Var "y")) (Lam w (Var "y")) = true :=
  C1_subst_no_capture "x" "y" (Var "y") 0 (by decide) (by decide) (by decide)

/-- C2: Irreducibility fixpoint.  Whenever the `reduce` loop terminates
(modelled by `reduceFuel` returning a value for some fuel), the returned
term is irreducible. -/
theorem C2_reduce_irreducible (n : Nat) (t : Term) (c : Nat) (r : Term)
    (c' : Nat) (h : reduceFuel n t c = some (r, c')) :
    is_irreducible r = true := by
  induction n generalizing t c with
  | zero =>
    rw [reduceFuel] at h
    by_cases hirr : is_irreducible t
    · rw [if_pos hirr] at h
      cases h
      exact hirr
    · rw [if_neg hirr] at h
      cases h
  | succ n ih =>
    rw [reduceFuel] at h
    by_cases hirr : is_irreducible t
    · rw [if_pos hirr] at h
      cases h
      exact hirr
    · rw [if_neg hirr] at h
      cases hstep : reduction_step t c with
      | none => rw [hstep] at h; cases h
      | some q =>
        rw [hstep, Option.some_bind] at h
        exact ih q.1 q.2 h

/-- C2 witness. -/
theorem C2_reduce_irreducible_witness : is_irreducible (Var "z") = true :=
  C2_reduce_irreducible 1 (Appl (Lam "x" (Var "x")) (Var "z")) 0 (Var "z") 0
    (by decide)

/-- C3: Normal-order single step.  The reduction step applies the beta
rule at the root when the left of an application is a lambda; descends
into the body of a lambda; and on an application whose left is not a
lambda, steps the right side exactly when the left is irreducible and
the left side otherwise. -/
theorem C3_reduction_step_normal_order :
    (∀ (x : String) (body arg : Term) (c : Nat),
      reduction_step (Appl (Lam x body) arg) c =
        some (subst body x arg c)) ∧
    (∀ (x : String) (body : Term) (c : Nat), is_irreducible body = false →
      reduction_step (Lam x body) c =
        (reduction_step body c).map fun q => (Lam x q.1, q.2)) ∧
    (∀ (l r : Term) (c : Nat), isLamB l = false → is_irreducible l = true →
      reduction_step (Appl l r) c =
        (reduction_step r c).map fun q => (Appl l q.1, q.2)) ∧
    (∀ (l r : Term) (c : Nat), isLamB l = false → is_irreducible l = false →
      reduction_step (Appl l r) c =
        (reduction_step l c).map fun q => (Appl q.1 r, q.2)) := by
  refine ⟨fun x body arg c => rfl, fun x body c _ => rfl, ?_, ?_⟩
  · intro l r c hlam hirr
    cases l with
    | Lam p b => simp [isLamB] at hlam
    | Var v => simp [reduction_step, hirr]
    | Appl a b => simp [reduction_step, hirr]
  · intro l r c hlam hirr
    cases l with
    | Lam p b => simp [isLamB] at hlam
    | Var v => simp [is_irreducible] at hirr
    | Appl a b => simp [reduction_step, hirr]

/-- C3 witness. -/
theorem C3_reduction_step_normal_order_witness :
    reduction_step (Appl (Lam "x" (Var "x")) (Var "z")) 0 =
      some (subst (Var "x") "x" (Var "z") 0) ∧
    reduction_step (Lam "x" (Appl (Lam "y" (Var "y")) (Var "z"))) 0 =
      (reduction_step (Appl (Lam "y" (Var "y")) (Var "z")) 0).map
        (fun q => (Lam "x" q.1, q.2)) ∧
    reduction_step (Appl (Var "a") (Appl (Lam "y" (Var "y")) (Var "z"))) 0 =
      (reduction_step (Appl (Lam "y" (Var "y")) (Var "z")) 0).map
        (fun q => (Appl (Var "a") q.1, q.2)) ∧
    reduction_step (Appl (Appl (Lam "y" (Var "y")) (Var "z")) (Var "b")) 0 =
      (reduction_step (Appl (Lam "y" (Var "y")) (Var "z")) 0).map
        (fun q => (Appl q.1 (Var "b"), q.2)) :=
  ⟨C3_reduction_step_normal_order.1 "x" (Var "x") (Var "z") 0,
    C3_reduction_step_normal_order.2.1 "x" (Appl (Lam "y" (Var "y")) (Var "z"))
      0 (by decide),
    C3_reduction_step_normal_order.2.2.1 (Var "a")
      (Appl (Lam "y" (Var "y")) (Var "z")) 0 (by decide) (by decide),
    C3_reduction_step_normal_order.2.2.2 (Appl (Lam "y" (Var "y")) (Var "z"))
      (Var "b") 0 (by decide) (by decide)⟩

/-- C4 counterexample: the claim says an abstraction on the right of an
application is printed without parentheses, but `render` parenthesizes
it (deliberately, per the source comment "we do it anyway for
readability"). -/
theorem C4_counterexample :
    render (Appl (Var "x") (Lam "y" (Var "y"))) = "x (fn y => y)" ∧
    render (Appl (Var "x") (Lam "y" (Var "y"))) ≠ "x fn y => y" := by
  constructor
  · rfl
  · decide

/-- C4 (amended): the rendering parenthesizes a child of an application in
exactly these cases — an abstraction as the left child, and any
non-variable (abstraction or application) as the right child; a variable
child is never parenthesized. -/
theorem C4_render_parenthesization (l r : Term) :
    render (Appl l r) =
      (if isLamB l then "(" ++ render l ++ ")" else render l) ++ " " ++
      (if isVarB r then render r else "(" ++ render r ++ ")") :=
  render_appl l r

/-- C5: Render/parse round trip.  For every term expressible by the
surface grammar (all identifiers well formed), parsing the rendered text
succeeds, consumes the whole input, and yields a term alpha-equivalent to
the original (in fact syntactically equal to it). -/
theorem C5_round_trip (t : Term) (hval : validTerm t) :
    ∃ t2, to_term (FA t) (render t) = some t2 ∧ alpha_equiv t2 t = true :=
  ⟨t, round_trip t hval, alpha_equiv_refl t⟩

/-- C5 witness. -/
theorem C5_round_trip_witness :
    ∃ t2, to_term (FA (Lam "x" (Var "x"))) (render (Lam "x" (Var "x"))) =
      some t2 ∧ alpha_equiv t2 (Lam "x" (Var "x")) = true :=
  C5_round_trip (Lam "x" (Var "x")) (by decide)

/-- C6: `alpha_equiv` is an equivalence relation: reflexive, symmetric
(the two Boolean results coincide), and transitive. -/
theorem C6_alpha_equiv_equivalence :
    (∀ t : Term, alpha_equiv t t = true) ∧
    (∀ t1 t2 : Term, alpha_equiv t1 t2 = alpha_equiv t2 t1) ∧
    (∀ t1 t2 t3 : Term, alpha_equiv t1 t2 = true →
      alpha_equiv t2 t3 = true → alpha_equiv t1 t3 = true) := by
  refine ⟨alpha_equiv_refl, ?_, ?_⟩
  · intro t1 t2
    exact (alpha_impl_symm t1 t2 []).symm
  · intro t1 t2 t3 h1 h2
    exact alpha_impl_trans t1 t2 t3 [] h1 h2

/-- C6 witness. -/
theorem C6_alpha_equiv_equivalence_witness :
    alpha_equiv (Lam "x" (Var "x")) (Lam "x" (Var "x")) = true ∧
    alpha_equiv (Var "a") (Var "b") = alpha_equiv (Var "b") (Var "a") ∧
    alpha_equiv (Lam "x" (Var "x")) (Lam "z" (Var "z")) = true :=
  ⟨C6_alpha_equiv_equivalence.1 (Lam "x" (Var "x")),
    C6_alpha_equiv_equivalence.2.1 (Var "a") (Var "b"),
    C6_alpha_equiv_equivalence.2.2 (Lam "x" (Var "x")) (Lam "y" (Var "y"))
      (Lam "z" (Var "z")) (by decide) (by decide)⟩

/-- C7: No-op substitution up to alpha.  Substituting for a variable `x`
not free in `t` produces a term alpha-equivalent to `t` (even though
every traversed binder is unconditionally renamed).  `nameOK c x` and
`namesBelow c t` are the data-model invariant of spec §3. -/
theorem C7_noop_subst (t : Term) (x : String) (s : Term) (c : Nat)
    (hx : x ∉ t.fv) (hxOK : nameOK c x) (ht : namesBelow c t) :
    alpha_equiv t (subst t x s c).1 = true :=
  subst_alpha t.sizeT t x s c [] (le_refl _) ht hxOK
    (fun m _ _ => varCheck_nil m) (Or.inl hx)

/-- C7 witness. -/
theorem C7_noop_subst_witness :
    alpha_equiv (Lam "a" (Appl (Var "a") (Var "b")))
      (subst (Lam "a" (Appl (Var "a") (Var "b"))) "q"
        (Appl (Var "x") (Var "y")) 0).1 = true :=
  C7_noop_subst (Lam "a" (Appl (Var "a") (Var "b"))) "q"
    (Appl (Var "x") (Var "y")) 0 (by decide) (by decide) (by decide)

/-- C8: Normal order does not force a diverging argument.
`(fn t => fn e => t) x ((fn x => x x)(fn x => x x))` reduces (with two
steps) to the variable `x`, which is alpha-equivalent to `x`; its second
argument steps to itself forever (it is never irreducible), so a
strategy that reduced it first would diverge. -/
theorem C8_lazy_eval :
    reduceFuel 2 (Appl (Appl (Lam "t" (Lam "e" (Var "t"))) (Var "x"))
        (Appl (Lam "x" (Appl (Var "x") (Var "x")))
          (Lam "x" (Appl (Var "x") (Var "x"))))) 0 = some (Var "x", 1) ∧
    alpha_equiv (Var "x") (Var "x") = true ∧
    reduction_step (Appl (Lam "x" (Appl (Var "x") (Var "x")))
        (Lam "x" (Appl (Var "x") (Var "x")))) 0 =
      some (Appl (Lam "x" (Appl (Var "x") (Var "x")))
        (Lam "x" (Appl (Var "x") (Var "x"))), 0) ∧
    is_irreducible (Appl (Lam "x" (Appl (Var "x") (Var "x")))
        (Lam "x" (Appl (Var "x") (Var "x")))) = false := by
  refine ⟨?_, ?_, ?_, ?_⟩ <;> decide

/-- `is_irreducible` on an application whose left side is not a lambda is
the conjunction of its sides' irreducibility. -/
theorem is_irreducible_appl (l r : Term) (h : isLamB l = false) :
    is_irreducible (Appl l r) = (is_irreducible l && is_irreducible r) := by
  cases l with
  | Var _ => rfl
  | Appl _ _ => rfl
  | Lam _ _ => simp [isLamB] at h

/-- C9: the reduction-step dispatcher never reaches a `Var` node: on any
reducible term it returns a result (the `Var` arm — the Rust
`unreachable!` panic, modelled as `none` — is never taken, because every
recursive call is made on a reducible subterm). -/
theorem C9_step_of_reducible (t : Term) (c : Nat)
    (h : is_irreducible t = false) :
    ∃ q, reduction_step t c = some q := by
  induction t generalizing c with
  | Var s => simp [is_irreducible] at h
  | Lam p rule ih =>
    have hr : is_irreducible rule = false := by
      simpa [is_irreducible] using h
    obtain ⟨q, hq⟩ := ih c hr
    exact ⟨(Lam p q.1, q.2), by rw [reduction_step, hq]; rfl⟩
  | Appl l r ihl ihr =>
    cases l with
    | Lam p b => exact ⟨subst b p r c, rfl⟩
    | Var v =>
      have hr2 : is_irreducible r = false := by
        have heq := is_irreducible_appl (Var v) r rfl
        rw [heq] at h
        simpa [is_irreducible] using h
      obtain ⟨q, hq⟩ := ihr c hr2
      exact ⟨(Appl (Var v) q.1, q.2), by
        simp [reduction_step, is_irreducible, hq]⟩
    | Appl a b =>
      have heq := is_irreducible_appl (Appl a b) r rfl
      by_cases hal : is_irreducible (Appl a b) = true
      · have hr2 : is_irreducible r = false := by
          rw [heq, hal] at h
          simpa using h
        obtain ⟨q, hq⟩ := ihr c hr2
        exact ⟨(Appl (Appl a b) q.1, q.2), by simp [reduction_step, hal, hq]⟩
      · have hl2 : is_irreducible (Appl a b) = false := by simpa using hal
        obtain ⟨q, hq⟩ := ihl c hl2
        refine ⟨(Appl q.1 r, q.2), ?_⟩
        have hstep : reduction_step (Appl (Appl a b) r) c =
            if is_irreducible (Appl a b) = true then
              (reduction_step r c).map (fun q => (Appl (Appl a b) q.1, q.2))
            else (reduction_step (Appl a b) c).map fun q =>
              (Appl q.1 r, q.2) := rfl
        rw [hstep, if_neg (by rw [hl2]; simp), hq]
        rfl

/-- C9 witness. -/
theorem C9_step_of_reducible_witness :
    ∃ q, reduction_step (Appl (Lam "x" (Var "x")) (Var "z")) 0 = some q :=
  C9_step_of_reducible (Appl (Lam "x" (Var "x")) (Var "z")) 0 (by decide)

/-- C10: Fresh-name uniqueness and shape.  `N` successive fresh-name
calls (for bases that are dot-free or previously generated) return
pairwise-distinct strings; the `i`-th result is
`<base>.<c+i+1>` where `<base>` is the `i`-th argument with any prior
`.`-suffix stripped and the numeric suffixes are the strictly
increasing counter values; the counter advances by `N`; and stripping
leaves a dot-free argument unchanged and recovers the original base of a
previously generated argument (so suffixes do not accumulate). -/
theorem C10_fresh_names (bs : List String) (c : Nat)
    (hb : ∀ b ∈ bs, noDot b ∨
      ∃ b0 k, noDot b0 ∧ b = b0 ++ "." ++ Nat.repr k) :
    (freshList bs c).1 =
      bs.mapIdx (fun i b => stripDots b ++ "." ++ Nat.repr (c + i + 1)) ∧
    (freshList bs c).1.Nodup ∧
    (freshList bs c).2 = c + bs.length ∧
    ∀ b ∈ bs, (noDot b → stripDots b = b) ∧
      ∀ b0 k, noDot b0 → b = b0 ++ "." ++ Nat.repr k → stripDots b = b0 := by
  refine ⟨(freshList_spec bs c).1, freshList_nodup bs c,
    (freshList_spec bs c).2, ?_⟩
  intro b _
  refine ⟨fun hnd => stripDots_of_noDot hnd, ?_⟩
  intro b0 k hb0 hform
  rw [hform]
  exact stripDots_gen b0 _ hb0

/-- C10 witness. -/
theorem C10_fresh_names_witness :
    (freshList ["foo", "bar", "foo"] 0).1 =
      (["foo", "bar", "foo"] : List String).mapIdx
        (fun i b => stripDots b ++ "." ++ Nat.repr (0 + i + 1)) ∧
    (freshList ["foo", "bar", "foo"] 0).1.Nodup ∧
    (freshList ["foo", "bar", "foo"] 0).2 =
      0 + (["foo", "bar", "foo"] : List String).length ∧
    ∀ b ∈ (["foo", "bar", "foo"] : List String),
      (noDot b → stripDots b = b) ∧
      ∀ b0 k, noDot b0 → b = b0 ++ "." ++ Nat.repr k → stripDots b = b0 :=
  C10_fresh_names ["foo", "bar", "foo"] 0 (by
    intro b hb
    simp only [List.mem_cons, List.not_mem_nil, or_false] at hb
    rcases hb with rfl | rfl | rfl <;> exact Or.inl (by decide))

end M3lc
